import Mathlib

/-!
Verification of the document-processing and search components of
`docusaurus-plugin-mcp-server`.

Strings are modelled as `List Char`; JavaScript string operations
(`split`, `trim`, `slice`, regex `replace`, ...) are embedded as
functions on character lists, each translated from the call sites in
the TypeScript source.  Character-class membership is expressed on
Unicode code points (`Char.toNat`).
-/

/-- Membership in the JavaScript regular-expression class `\s`
(whitespace), as used by `trim`, `split(/\s+/)` and the whitespace
character classes of the source's regular expressions: space, tab,
line feed, vertical tab, form feed, carriage return, NBSP, Ogham space
mark, the U+2000 to U+200A spaces, the line and paragraph separators,
narrow no-break space, medium mathematical space, ideographic space
and the byte-order mark. -/
def isJsSpace (c : Char) : Bool :=
  c.toNat = 32 || c.toNat = 9 || c.toNat = 10 || c.toNat = 11 ||
  c.toNat = 12 || c.toNat = 13 || c.toNat = 0xa0 || c.toNat = 0x1680 ||
  (0x2000 ≤ c.toNat && c.toNat ≤ 0x200a) ||
  c.toNat = 0x2028 || c.toNat = 0x2029 || c.toNat = 0x202f ||
  c.toNat = 0x205f || c.toNat = 0x3000 || c.toNat = 0xfeff

/-- Membership in the JavaScript regular-expression class `\w`
(word characters): ASCII letters, digits and underscore. -/
def isWordChar (c : Char) : Bool :=
  (97 ≤ c.toNat && c.toNat ≤ 122) || (65 ≤ c.toNat && c.toNat ≤ 90) ||
  (48 ≤ c.toNat && c.toNat ≤ 57) || c.toNat = 95

/-- The character `\x7b` (opening curly bracket), named so that it can
appear in embedded regular-expression matchers. -/
def lbrace : Char := Char.ofNat 123

/-- The character `\x7d` (closing curly bracket). -/
def rbrace : Char := Char.ofNat 125

/-- The backtick character. -/
def backtick : Char := Char.ofNat 96

/-- JavaScript `String.prototype.trim`: drop leading and trailing
whitespace. -/
def jsTrim (l : List Char) : List Char :=
  ((l.dropWhile isJsSpace).reverse.dropWhile isJsSpace).reverse

/-- JavaScript `String.prototype.trimEnd`: drop trailing whitespace. -/
def jsTrimEnd (l : List Char) : List Char :=
  (l.reverse.dropWhile isJsSpace).reverse

/-- JavaScript `string.split('\n')`: cut a character list at every
newline.  The result always has one more entry than the number of
newlines; in particular it is never empty. -/
def splitLines : List Char → List (List Char)
  | [] => [[]]
  | c :: rest =>
    if c = '\n' then [] :: splitLines rest
    else
      match splitLines rest with
      | [] => [[c]]
      | l :: ls => (c :: l) :: ls

/-- JavaScript `lines.join('\n')`, the inverse direction of `splitLines`. -/
def joinLines : List (List Char) → List Char
  | [] => []
  | [l] => l
  | l :: ls => l ++ '\n' :: joinLines ls

/-- Total size of a line list counting one separator per line, the
quantity the heading scanner's `currentOffset` accumulates
(`line.length + 1` per line). -/
def sumLens : List (List Char) → Nat
  | [] => 0
  | l :: ls => l.length + 1 + sumLens ls

/-- JavaScript global regex replacement `replace(/p+/g, r)` for a
character class `p`: every maximal run of characters satisfying `p`
becomes the single character `r`.  A character inside a run whose
successor still lies in the run contributes nothing; the last
character of a run contributes the single replacement `r`. -/
def collapseRuns (p : Char → Bool) (r : Char) : List Char → List Char
  | [] => []
  | c :: rest =>
    if p c then
      match rest with
      | [] => [r]
      | d :: _ => if p d then collapseRuns p r rest else r :: collapseRuns p r rest
    else c :: collapseRuns p r rest

/-- Removal of a single leading hyphen, the `^-` alternative of the
anchored regex `/^-|-$/g`. -/
def dropLeadHyphen : List Char → List Char
  | '-' :: rest => rest
  | other => other

/-- JavaScript `replace(/^-|-$/g, '')`: remove one leading and one
trailing hyphen (the two anchored alternatives each match at most
once; the trailing removal is the leading removal on the reversed
list). -/
def trimEdgeHyphens (l : List Char) : List Char :=
  (dropLeadHyphen ((dropLeadHyphen l).reverse)).reverse

/-- Source `generateHeadingId` (src/processing/heading-extractor.ts):
lowercase, strip every character outside `\w`, whitespace and hyphen,
replace whitespace runs by single hyphens, collapse hyphen runs, trim
one leading/trailing hyphen. -/
def generateHeadingId (text : List Char) : List Char :=
  trimEdgeHyphens
    (collapseRuns (fun c => c = '-') '-'
      (collapseRuns isJsSpace '-'
        ((text.map Char.toLower).filter
          (fun c => isWordChar c || isJsSpace c || c = '-'))))

/-- Fuel-indexed engine for JavaScript global regex replacement
`replace(/pat/g, rep)` driven by a matcher `f`: `f s = some (rep, k)`
states that a match starts at the head of `s`, consumes `k + 1`
characters and is replaced by `rep`; scanning restarts after the
consumed characters, and a position with no match emits its character
unchanged.  The fuel only serves structural recursion; one unit is
spent per consumed character, so `s.length` units always suffice. -/
def replaceScanFuel (f : List Char → Option (List Char × Nat)) :
    Nat → List Char → List Char
  | 0, s => s
  | _ + 1, [] => []
  | fuel + 1, c :: rest =>
    match f (c :: rest) with
    | some (rep, k) => rep ++ replaceScanFuel f fuel (rest.drop k)
    | none => c :: replaceScanFuel f fuel rest

/-- JavaScript global regex replacement over a whole string, with the
fuel instantiated to the string length. -/
def replaceScan (f : List Char → Option (List Char × Nat)) (s : List Char) : List Char :=
  replaceScanFuel f s.length s

/-- Matcher for the delimiter-wrapped patterns of the source's inline
cleanup regexes: `dcount` copies of `dchar`, then at least one
character outside the class of `dchar` (the greedy `[^d]+` capture),
then `dcount` copies of `dchar` again.  Returns the captured inner
text and the consumed length minus one. -/
def surroundMatch (dchar : Char) (dcount : Nat) (s : List Char) : Option (List Char × Nat) :=
  if (List.replicate dcount dchar).isPrefixOf s then
    let rest := s.drop dcount
    let inner := rest.takeWhile (fun c => c ≠ dchar)
    if 1 ≤ inner.length ∧ (List.replicate dcount dchar).isPrefixOf (rest.drop inner.length) then
      some (inner, dcount + inner.length + dcount - 1)
    else none
  else none

/-- Source cleanup `replace(/\*\*([^*]+)\*\*/g, '$1')`: unwrap bold. -/
def stripBold (l : List Char) : List Char :=
  replaceScan (surroundMatch '*' 2) l

/-- Source cleanup `replace(/_([^_]+)_/g, '$1')`: unwrap italics. -/
def stripItalic (l : List Char) : List Char :=
  replaceScan (surroundMatch '_' 1) l

/-- Source cleanup of inline code spans wrapped in backticks,
`$1`-replacement like the two above. -/
def stripInlineCode (l : List Char) : List Char :=
  replaceScan (surroundMatch backtick 1) l

/-- Matcher for the optional anchor-suffix group
`(?:\s+\{#([^}]+)\})?$` of the heading regex: at least one whitespace
character, an opening bracket and `#`, at least one character other
than the closing bracket, the closing bracket, and then the end of the
line.  Returns the captured id. -/
def anchorSuffix (rest : List Char) : Option (List Char) :=
  let w := rest.takeWhile isJsSpace
  if w.length = 0 then none
  else
    match rest.drop w.length with
    | c1 :: c2 :: r2 =>
      if c1 = lbrace ∧ c2 = '#' then
        let inner := r2.takeWhile (fun c => c ≠ rbrace)
        if 1 ≤ inner.length ∧ r2.drop inner.length = [rbrace] then some inner
        else none
      else none
    | _ => none

/-- Lazy expansion of the `(.+?)` text capture of the heading regex:
the text is the shortest nonempty prefix of the post-whitespace
content whose remainder is either the anchor-suffix group or empty.
Returns the captured text and the captured anchor id, if any. -/
def splitTextAnchor : List Char → (List Char × Option (List Char))
  | [] => ([], none)
  | c :: rest =>
    match anchorSuffix rest with
    | some a => ([c], some a)
    | none =>
      let p := splitTextAnchor rest
      (c :: p.1, p.2)

/-- Matching of one line against the source heading regex
`/^(#{1,6})\s+(.+?)(?:\s+\{#([^}]+)\})?$/`: one to six leading hash
characters (a longer hash run fails, since the character after the
captured hashes must be whitespace), at least one whitespace
character, then the lazy text capture with its optional anchor group.
When everything after the hashes is whitespace, the regex backtracks
and the text capture is the final whitespace character.  Returns the
level, the raw text capture and the optional explicit anchor. -/
def parseHeadingLine (l : List Char) : Option (Nat × List Char × Option (List Char)) :=
  let k := (l.takeWhile (fun c => c = '#')).length
  if 1 ≤ k ∧ k ≤ 6 then
    let rest := l.drop k
    let w := rest.takeWhile isJsSpace
    if w.length = 0 then none
    else
      match rest.drop w.length with
      | [] => if 2 ≤ w.length then some (k, w.drop (w.length - 1), none) else none
      | c :: content2 =>
        let p := splitTextAnchor (c :: content2)
        some (k, p.1, p.2)
  else none

/-- Source `DocHeading` record (src/types/index.ts).  The source
initializes `endOffset` with the placeholder -1 and overwrites it for
every heading in the second pass, so the model keeps the field as a
`Nat` assigned by the second pass. -/
structure DocHeading where
  level : Nat
  text : List Char
  id : List Char
  startOffset : Nat
  endOffset : Nat
deriving DecidableEq

/-- Projection of a heading to the two fields the second pass never
changes. -/
def headingKey (h : DocHeading) : Nat × Nat :=
  (h.level, h.startOffset)

/-- Construction of the heading record pushed by the first pass: the
id is the explicit anchor when present, otherwise derived from the raw
text capture; the stored text has bold, italic and inline-code
wrappers removed and is trimmed, in source order. -/
def mkHeading (k : Nat) (t : List Char) (a : Option (List Char)) (off : Nat) : DocHeading :=
  { level := k,
    text := jsTrim (stripInlineCode (stripItalic (stripBold t))),
    id := match a with
      | some x => x
      | none => generateHeadingId t,
    startOffset := off,
    endOffset := 0 }

/-- First pass of `extractHeadingsFromMarkdown`: walk the lines with
the running character offset (`line.length + 1` per line), recording
each heading line via `mkHeading`. -/
def scanHeadings : List (List Char) → Nat → List DocHeading
  | [], _ => []
  | l :: ls, off =>
    match parseHeadingLine l with
    | some (k, t, a) => mkHeading k t a off :: scanHeadings ls (off + l.length + 1)
    | none => scanHeadings ls (off + l.length + 1)

/-- Inner loop of the second pass: the end offset of a heading of level
`level` is the start offset of the first later heading whose level is
at most `level`, or the document length when there is none. -/
def computeEndOffset (level : Nat) (rest : List DocHeading) (len : Nat) : Nat :=
  match rest with
  | [] => len
  | h :: t => if h.level ≤ level then h.startOffset else computeEndOffset level t len

/-- Second pass of `extractHeadingsFromMarkdown`: assign every heading
its end offset computed from the headings after it. -/
def setEndOffsets : List DocHeading → Nat → List DocHeading
  | [], _ => []
  | h :: t, len =>
    { h with endOffset := computeEndOffset h.level t len } :: setEndOffsets t len

/-- Source `extractHeadingsFromMarkdown`
(src/processing/heading-extractor.ts): split into lines, scan for
heading lines with a running offset, then assign end offsets. -/
def extractHeadingsFromMarkdown (markdown : List Char) : List DocHeading :=
  setEndOffsets (scanHeadings (splitLines markdown) 0) markdown.length

/-- Vowel class `[aeiou]` used by the stemmer's guarded rules. -/
def isVowel (c : Char) : Bool :=
  c = 'a' || c = 'e' || c = 'i' || c = 'o' || c = 'u'

/-- JavaScript anchored non-global `replace(/suf$/, rep)`: when the word
ends with `suf`, replace that suffix by `rep`; otherwise leave the word
unchanged. -/
def replaceEnd (suf rep : List Char) (l : List Char) : List Char :=
  if suf.isSuffixOf l then l.take (l.length - suf.length) ++ rep else l

/-- JavaScript anchored `replace(/([^X])suf$/, '$1')` for a character
class `X`: strip the suffix `suf` when it is immediately preceded by a
character outside `X`; the preceding character is kept. -/
def stripGuarded (bad : Char → Bool) (suf : List Char) (l : List Char) : List Char :=
  if suf.isSuffixOf l then
    match (l.take (l.length - suf.length)).getLast? with
    | some c => if bad c then l else l.take (l.length - suf.length)
    | none => l
  else l

/-- Source `englishStemmer` (src/search/flexsearch-indexer.ts): words of
length at most 3 pass through; longer words go through the chain of
anchored suffix replacements in source order (the innermost replacement
is applied first). -/
def englishStemmer (word : List Char) : List Char :=
  if word.length ≤ 3 then word
  else
    stripGuarded (fun c => c = 's') ("s".toList)
      (replaceEnd ("ies".toList) ("y".toList)
        (replaceEnd ("ness".toList) []
          (replaceEnd ("ment".toList) []
            (replaceEnd ("ly".toList) []
              (stripGuarded isVowel ("es".toList)
                (stripGuarded isVowel ("ed".toList)
                  (replaceEnd ("sion".toList) ("s".toList)
                    (replaceEnd ("tion".toList) ("t".toList)
                      (replaceEnd ("ing".toList) [] word)))))))))

/-- Modelled from the spec: one suffix-stripping rule of the stemmer,
either a plain suffix-to-replacement rewrite or a guarded strip that
fires only after a character outside a class. -/
inductive StemRule where
  | plain : List Char → List Char → StemRule
  | afterNon : (Char → Bool) → List Char → StemRule

/-- Application of a single spec stemming rule to a word. -/
def applyStemRule (w : List Char) : StemRule → List Char
  | .plain suf rep => replaceEnd suf rep w
  | .afterNon bad suf => stripGuarded bad suf w

/-- Modelled from the spec: the rule list "strip trailing ing; tion to
t; sion to s; trailing ed after a non-vowel; trailing es after a
non-vowel; strip trailing ly; strip trailing ment; strip trailing
ness; ies to y; trailing s after a non-s character", in that order. -/
def specStemRuleList : List StemRule :=
  [ .plain ("ing".toList) [],
    .plain ("tion".toList) ("t".toList),
    .plain ("sion".toList) ("s".toList),
    .afterNon isVowel ("ed".toList),
    .afterNon isVowel ("es".toList),
    .plain ("ly".toList) [],
    .plain ("ment".toList) [],
    .plain ("ness".toList) [],
    .plain ("ies".toList) ("y".toList),
    .afterNon (fun c => c = 's') ("s".toList) ]

/-- Modelled from the spec: the stemmer as the left fold of the spec's
ordered rule list over the word. -/
def specStemmer (w : List Char) : List Char :=
  specStemRuleList.foldl applyStemRule w

/-- Source `ProcessedDoc` record (src/types/index.ts): route, title,
meta description, page markdown and extracted headings. -/
structure ProcessedDoc where
  route : List Char
  title : List Char
  description : List Char
  markdown : List Char
  headings : List DocHeading
deriving DecidableEq

/-- Source `extractSection` (src/processing/heading-extractor.ts): find
the heading with the given id, slice the markdown between its start
and end offsets and trim the slice. -/
def extractSection (markdown : List Char) (headingId : List Char)
    (headings : List DocHeading) : Option (List Char) :=
  match headings.find? (fun h => h.id = headingId) with
  | none => none
  | some h => some (jsTrim ((markdown.drop h.startOffset).take (h.endOffset - h.startOffset)))

/-- Lookup in the `Record<string, ProcessedDoc>` docs map, modelled as
an association list with string keys. -/
def lookupDoc (docs : List (List Char × ProcessedDoc)) (key : List Char) :
    Option ProcessedDoc :=
  (docs.find? (fun p => p.1 = key)).map Prod.snd

/-- Route normalization of `executeDocsGetSection`
(src/mcp/tools/docs-get-section.ts lines 58-65): trim, prepend a
leading slash when absent, strip a single trailing slash when the
route is longer than "/". -/
def normalizeRoute (route : List Char) : List Char :=
  let r1 := jsTrim route
  let r2 := if r1.head? = some '/' then r1 else '/' :: r1
  if 1 < r2.length ∧ r2.getLast? = some '/' then r2.dropLast else r2

/-- Source `SectionResult` record (src/mcp/tools/docs-get-section.ts):
`availableHeadings` entries are (id, text, level) triples. -/
structure SectionResult where
  content : Option (List Char)
  doc : Option ProcessedDoc
  headingText : Option (List Char)
  availableHeadings : List (List Char × List Char × Nat)
deriving DecidableEq

/-- Source `executeDocsGetSection`: validate the parameters (a falsy
route or heading id throws; the `typeof` guards have no Lean
counterpart since the model is typed), normalize the route, look the
document up, and resolve the heading by its trimmed id.  A thrown
error is modelled as `Except.error`. -/
def executeDocsGetSection (route headingId : List Char)
    (docs : List (List Char × ProcessedDoc)) : Except (List Char) SectionResult :=
  if route = [] then
    Except.error ("Route parameter is required and must be a string".toList)
  else if headingId = [] then
    Except.error ("HeadingId parameter is required and must be a string".toList)
  else
    match lookupDoc docs (normalizeRoute route) with
    | none => Except.ok ⟨none, none, none, []⟩
    | some doc =>
      let availableHeadings := doc.headings.map (fun h => (h.id, h.text, h.level))
      match doc.headings.find? (fun h => h.id = jsTrim headingId) with
      | none => Except.ok ⟨none, some doc, none, availableHeadings⟩
      | some heading =>
        Except.ok ⟨extractSection doc.markdown (jsTrim headingId) doc.headings,
          some doc, some heading.text, availableHeadings⟩

/-- JavaScript `baseUrl.replace(/\/$/, '')`: drop one trailing slash. -/
def dropTrailSlash (l : List Char) : List Char :=
  if l.getLast? = some '/' then l.dropLast else l

/-- Source `formatSectionContent`: a missing document renders a fixed
message; a missing (or empty, which is falsy) content renders the
requested id and the enumerated available headings, each indented two
spaces per level below one; otherwise the section is rendered under
its heading with a provenance line. -/
def formatSectionContent (result : SectionResult) (headingId : List Char)
    (baseUrl : Option (List Char)) : List Char :=
  match result.doc with
  | none => "Page not found. Please check the route path and try again.".toList
  | some doc =>
    if result.content = none ∨ result.content = some [] then
      joinLines
        (("Section \"".toList ++ headingId ++ "\" not found in this document.".toList) ::
          [] :: "Available sections:".toList ::
          result.availableHeadings.map (fun h =>
            List.replicate (2 * (h.2.2 - 1)) ' ' ++ "- ".toList ++ h.2.1 ++
              " (id: ".toList ++ h.1 ++ ")".toList))
    else
      let contentVal := (result.content).getD []
      let headerLine := "# ".toList ++ (result.headingText).getD ("null".toList)
      let fromLine :=
        match baseUrl with
        | some b => "> From: ".toList ++ doc.title ++ " - ".toList ++
            dropTrailSlash b ++ doc.route ++ "#".toList ++ headingId
        | none => "> From: ".toList ++ doc.title ++ " (".toList ++ doc.route ++ ")".toList
      joinLines [headerLine, fromLine, [], "---".toList, [], contentVal]

/-- Fuel-indexed tokenizer for JavaScript
`str.split(/\s+/).filter(Boolean)`: the maximal non-whitespace runs of
the string, in order.  One fuel unit is spent per consumed character,
so `l.length` units always suffice. -/
def wsTokensFuel : Nat → List Char → List (List Char)
  | 0, _ => []
  | _ + 1, [] => []
  | fuel + 1, c :: rest =>
    if isJsSpace c then wsTokensFuel fuel rest
    else
      ((c :: rest).takeWhile (fun d => !isJsSpace d)) ::
        wsTokensFuel fuel ((c :: rest).dropWhile (fun d => !isJsSpace d))

/-- JavaScript `str.split(/\s+/).filter(Boolean)`. -/
def wsTokens (l : List Char) : List (List Char) :=
  wsTokensFuel l.length l

/-- JavaScript `hay.indexOf(needle)` on character lists, as character
position of the first occurrence (`none` for -1). -/
def indexOfSub (needle : List Char) : List Char → Option Nat
  | [] => if needle.isPrefixOf ([] : List Char) then some 0 else none
  | c :: t =>
    if needle.isPrefixOf (c :: t) then some 0
    else (indexOfSub needle t).map (fun n => n + 1)

/-- One iteration of the best-match loop of `generateSnippet`: keep
the earlier occurrence position; an earlier term wins ties. -/
def bestTermStep (lower : List Char) (best : Option (Nat × List Char))
    (term : List Char) : Option (Nat × List Char) :=
  match indexOfSub term lower with
  | none => best
  | some i =>
    match best with
    | none => some (i, term)
    | some (bi, bt) => if i < bi then some (i, term) else some (bi, bt)

/-- The best-match loop of `generateSnippet`: walk the terms in order,
keeping the earliest occurrence position (and its term). -/
def findBestTerm (lower : List Char) (terms : List (List Char)) :
    Option (Nat × List Char) :=
  terms.foldl (bestTermStep lower) none

/-- Length of the longest whitespace-separated query term, the bound
appearing in the amended snippet-length property. -/
def maxTermLen (query : List Char) : Nat :=
  ((wsTokens (query.map Char.toLower)).map List.length).foldr max 0

/-- The per-line effect of the snippet cleanup `replace(/^#{1,6}\s+/gm,
'')`: strip one to six leading hashes followed by whitespace; a run of
seven or more hashes does not match. -/
def stripHeadingMarkerLine (l : List Char) : List Char :=
  let k := (l.takeWhile (fun c => c = '#')).length
  if 1 ≤ k ∧ k ≤ 6 ∧ (l.drop k).takeWhile isJsSpace ≠ [] then
    (l.drop k).dropWhile isJsSpace
  else l

/-- The snippet cleanup `replace(/^#{1,6}\s+/gm, '')`: with the
multiline flag the anchor matches at each line start, so the
replacement acts per line. -/
def stripHeadingMarkers (s : List Char) : List Char :=
  joinLines ((splitLines s).map stripHeadingMarkerLine)

/-- Matcher for the snippet cleanup `replace(/\[([^\]]+)\]\([^)]+\)/g,
'$1')`: a bracketed nonempty label followed by a parenthesized
nonempty target; the label is kept. -/
def linkMatch (s : List Char) : Option (List Char × Nat) :=
  match s with
  | '[' :: rest =>
    let inner := rest.takeWhile (fun c => c ≠ ']')
    (match rest.drop inner.length with
     | ']' :: '(' :: rest2 =>
       let url := rest2.takeWhile (fun c => c ≠ ')')
       if 1 ≤ inner.length ∧ 1 ≤ url.length ∧ (rest2.drop url.length).head? = some ')' then
         some (inner, inner.length + url.length + 3)
       else none
     | _ => none)
  | _ => none

/-- Matcher for the snippet cleanup `replace(/!\[([^\]]*)\]\([^)]+\)/g,
'')`: an image, whose label may be empty, is removed entirely. -/
def imageMatch (s : List Char) : Option (List Char × Nat) :=
  match s with
  | '!' :: '[' :: rest =>
    let inner := rest.takeWhile (fun c => c ≠ ']')
    (match rest.drop inner.length with
     | ']' :: '(' :: rest2 =>
       let url := rest2.takeWhile (fun c => c ≠ ')')
       if 1 ≤ url.length ∧ (rest2.drop url.length).head? = some ')' then
         some ([], inner.length + url.length + 4)
       else none
     | _ => none)
  | _ => none

/-- Matcher for the snippet cleanup of code-fence markers: three
backticks, a possibly empty lowercase language tag, and an optional
newline, all removed. -/
def fenceMatch (s : List Char) : Option (List Char × Nat) :=
  match s with
  | c1 :: c2 :: c3 :: rest =>
    if c1 = backtick ∧ c2 = backtick ∧ c3 = backtick then
      let lang := rest.takeWhile (fun c => 97 ≤ c.toNat ∧ c.toNat ≤ 122)
      if (rest.drop lang.length).head? = some '\n' then
        some ([], lang.length + 3)
      else some ([], lang.length + 2)
    else none
  | _ => none

/-- Source `generateSnippet` (src/search/flexsearch-indexer.ts): with
no query terms or no occurrence of a raw or stemmed term
(case-insensitive), the first 200 characters of the document plus a
trailing ellipsis when truncated; otherwise a window from 50
characters before the earliest occurrence to 150 characters past the
end of the matched term, cleaned of heading markers, links, images,
code fences, inline code and whitespace runs, with ellipses marking a
window that does not reach the document boundary. -/
def generateSnippet (markdown query : List Char) : List Char :=
  let maxLength := 200
  let queryTerms := wsTokens (query.map Char.toLower)
  if queryTerms.length = 0 then
    markdown.take maxLength ++
      (if maxLength < markdown.length then "...".toList else [])
  else
    let lowerMarkdown := markdown.map Char.toLower
    let allTerms := queryTerms ++ queryTerms.map englishStemmer
    match findBestTerm lowerMarkdown allTerms with
    | none =>
      markdown.take maxLength ++
        (if maxLength < markdown.length then "...".toList else [])
    | some (bestIndex, bestTerm) =>
      let snippetStart := bestIndex - 50
      let snippetEnd := min markdown.length (bestIndex + bestTerm.length + 150)
      let snippet := jsTrim (collapseRuns isJsSpace ' '
        (stripInlineCode (replaceScan fenceMatch
          (replaceScan imageMatch (replaceScan linkMatch
            (stripHeadingMarkers
              ((markdown.drop snippetStart).take (snippetEnd - snippetStart))))))))
      (if 0 < snippetStart then "...".toList else []) ++ snippet ++
        (if snippetEnd < markdown.length then "...".toList else [])

/-- JavaScript `str.split(/\s+/)` without the `filter(Boolean)`: a
leading or trailing whitespace run contributes an empty entry, and an
empty string yields one empty entry. -/
def splitWsKeepEmpty (s : List Char) : List (List Char) :=
  if s = [] then [[]]
  else
    (match s.head? with
     | some c => if isJsSpace c then [([] : List Char)] else []
     | none => []) ++
    wsTokens s ++
    (match s.getLast? with
     | some c => if isJsSpace c then [([] : List Char)] else []
     | none => [])

/-- JavaScript `hay.includes(needle)` on character lists. -/
def containsSub (hay needle : List Char) : Bool :=
  (indexOfSub needle hay).isSome

/-- Source `findMatchingHeadings`: headings whose lowercased text, or
whose per-word-stemmed text, contains a raw or stemmed query term;
original heading texts, at most three. -/
def findMatchingHeadings (doc : ProcessedDoc) (query : List Char) : List (List Char) :=
  let queryTerms := wsTokens (query.map Char.toLower)
  let allTerms := queryTerms ++ queryTerms.map englishStemmer
  ((doc.headings.filter (fun h =>
      let headingLower := h.text.map Char.toLower
      let headingStemmed :=
        List.intercalate [' '] ((splitWsKeepEmpty headingLower).map englishStemmer)
      allTerms.any (fun term =>
        containsSub headingLower term ||
        containsSub headingStemmed (englishStemmer term)))).map
    (fun h => h.text)).take 3

/-- One entry of the raw FlexSearch `index.search(query, { enrich })`
output: the field name and the ranked document ids for that field.
The FlexSearch engine itself is an external npm dependency, so its
output is a parameter of the model. -/
structure FieldResult where
  field : List Char
  result : List (List Char)

/-- Source `FIELD_WEIGHTS` with the `?? 1.0` fallback of `searchIndex`;
scores are modelled as rationals. -/
def fieldWeight (f : List Char) : ℚ :=
  if f = "title".toList then 3
  else if f = "headings".toList then 2
  else if f = "description".toList then 3 / 2
  else if f = "content".toList then 1
  else 1

/-- JavaScript `Map.set(key, (Map.get(key) ?? 0) + v)`: update an
existing key in place (preserving insertion order) or append a new
one. -/
def addScore (m : List (List Char × ℚ)) (key : List Char) (v : ℚ) :
    List (List Char × ℚ) :=
  match m with
  | [] => [(key, v)]
  | (k, s) :: rest => if k = key then (k, s + v) :: rest else (k, s) :: addScore rest key v

/-- Per-field aggregation loop of `searchIndex`: each id at position
`i` out of `n` results contributes `(n - i) / n` times the field
weight. -/
def processFieldResult (m : List (List Char × ℚ)) (fr : FieldResult) :
    List (List Char × ℚ) :=
  let n := fr.result.length
  fr.result.enum.foldl
    (fun m2 p =>
      addScore m2 p.2 ((((n : ℚ) - (p.1 : ℚ)) / (n : ℚ)) * fieldWeight fr.field))
    m

/-- Source `SearchResult` record as populated by `searchIndex`
(route, title, score, snippet, matching headings). -/
structure SearchResult where
  route : List Char
  title : List Char
  score : ℚ
  snippet : List Char
  matchingHeadings : List (List Char)

/-- Stable insertion step for the descending score sort: an element
goes before the first existing element with a score at most its own,
so earlier elements win ties, as in the (stable) JavaScript
`sort((a, b) => b.score - a.score)`. -/
def insertDesc (x : SearchResult) : List SearchResult → List SearchResult
  | [] => [x]
  | y :: ys => if y.score ≤ x.score then x :: y :: ys else y :: insertDesc x ys

/-- Stable descending sort by score. -/
def sortByScoreDesc (l : List SearchResult) : List SearchResult :=
  l.foldr insertDesc []

/-- Source `searchIndex` (src/search/flexsearch-indexer.ts) with the
raw FlexSearch output as a parameter: aggregate weighted position
scores per document id across fields, build a result per scored id
that resolves in the docs map (in map insertion order), sort by score
descending and truncate to the limit. -/
def searchIndex (rawResults : List FieldResult)
    (docs : List (List Char × ProcessedDoc)) (query : List Char) (limit : Int) :
    List SearchResult :=
  let docScores := rawResults.foldl processFieldResult []
  let results := docScores.filterMap (fun p =>
    (lookupDoc docs p.1).map (fun doc =>
      { route := doc.route, title := doc.title, score := p.2,
        snippet := generateSnippet doc.markdown query,
        matchingHeadings := findMatchingHeadings doc query }))
  (sortByScoreDesc results).take limit.toNat

/-- Source `executeDocsSearch` (src/mcp/tools/docs-search.ts): reject a
falsy or whitespace-only query with an error, clamp the limit to
[1, 20], and search with the trimmed query.  The raw FlexSearch output
is a parameter of the model, and a  thrown error is `Except.error`. -/
def executeDocsSearch (query : List Char) (limit : Int)
    (rawResults : List FieldResult) (docs : List (List Char × ProcessedDoc)) :
    Except (List Char) (List SearchResult) :=
  if query = [] ∨ (jsTrim query).length = 0 then
    Except.error ("Query parameter is required and must be a non-empty string".toList)
  else
    Except.ok (searchIndex rawResults docs (jsTrim query) (min (max 1 limit) 20))

/-- Matcher for `replace(/\n{3,}/g, '\n\n')` in `cleanMarkdown`: a
maximal run of three or more newlines is replaced by exactly two. -/
def newlineRunMatch (s : List Char) : Option (List Char × Nat) :=
  match s with
  | '\n' :: '\n' :: '\n' :: rest =>
    some ("\n\n".toList, (rest.takeWhile (fun c => c = '\n')).length + 2)
  | _ => none

/-- The `replace(/\n{3,}/g, '\n\n')` pass of `cleanMarkdown`. -/
def collapseNewlineRuns (s : List Char) : List Char :=
  replaceScan newlineRunMatch s

/-- Source `cleanMarkdown` (src/processing/html-to-markdown.ts):
collapse newline runs of three or more, strip trailing whitespace from
every line, trim the whole string and append exactly one newline. -/
def cleanMarkdown (markdown : List Char) : List Char :=
  jsTrim (joinLines ((splitLines (collapseNewlineRuns markdown)).map jsTrimEnd)) ++ ['\n']

/-- Source `htmlToMarkdown` (src/processing/html-to-markdown.ts).  The
HTML-to-markdown conversion itself is performed by the external
unified/rehype/remark libraries, which are not part of this repository,
so the conversion is a parameter of the model; the `catch` fallback for
converter exceptions is likewise outside the model.  Empty or
whitespace-only input short-circuits to the empty string, everything
else is post-processed by `cleanMarkdown`. -/
def htmlToMarkdown (convert : List Char → List Char) (html : List Char) : List Char :=
  if html = [] ∨ jsTrim html = [] then []
  else cleanMarkdown (convert html)

/-- A line ends in whitespace. -/
def hasTrailWs (l : List Char) : Bool :=
  match l.getLast? with
  | some c => isJsSpace c
  | none => false

/-- Occurrence of a whitespace character other than a newline that is
immediately followed by a newline or ends the string: the character
form of "some line has trailing whitespace". -/
def badWsNl : List Char → Bool
  | [] => false
  | c :: rest =>
    (isJsSpace c && !(c = '\n') && (decide (rest.head? = some '\n') || decide (rest = []))) ||
    badWsNl rest

/-- Occurrence of three consecutive newline characters. -/
def hasThreeNl : List Char → Bool
  | c1 :: c2 :: c3 :: rest =>
    (c1 = '\n' && c2 = '\n' && c3 = '\n') || hasThreeNl (c2 :: c3 :: rest)
  | _ => false

/-- Sample document used by concrete witnesses. -/
def sampleDoc : ProcessedDoc :=
  ⟨"/docs/page".toList, "Page".toList, [], "# Intro\nBody".toList,
    [⟨1, "Intro".toList, "intro".toList, 0, 12⟩]⟩

/-- Sample docs map used by concrete witnesses. -/
def sampleDocs : List (List Char × ProcessedDoc) :=
  [("/docs/page".toList, sampleDoc)]

/-! Supporting lemmas. -/

theorem char_toNat_ofNat (n : Nat) (h : n < 0xd800) : (Char.ofNat n).toNat = n := by
  rw [Char.ofNat, dif_pos (Or.inl h)]
  simp [Char.ofNatAux, Char.toNat, UInt32.ofNat', UInt32.toNat]

theorem char_isUpper_iff (c : Char) : c.isUpper = true ↔ (65 ≤ c.toNat ∧ c.toNat ≤ 90) := by
  simp [Char.isUpper, Char.toNat, UInt32.le_def, BitVec.le_def, UInt32.toNat]

theorem toLower_not_upper (c : Char) : (Char.toLower c).isUpper = false := by
  unfold Char.toLower
  simp only []
  split
  · rename_i h
    obtain ⟨h1, h2⟩ := h
    have hv : (Char.ofNat (c.toNat + 32)).toNat = c.toNat + 32 := by
      apply char_toNat_ofNat
      omega
    rw [Bool.eq_false_iff]
    intro hc
    rw [char_isUpper_iff] at hc
    omega
  · rename_i h
    rw [Bool.eq_false_iff]
    intro hc
    rw [char_isUpper_iff] at hc
    exact h hc

theorem toLower_eq_self (c : Char) (h : c.isUpper = false) : Char.toLower c = c := by
  unfold Char.toLower
  simp only []
  rw [if_neg]
  intro hc
  rw [Bool.eq_false_iff] at h
  exact h (char_isUpper_iff c |>.mpr hc)

theorem word_not_space (c : Char) (h : isWordChar c = true) : isJsSpace c = false := by
  simp only [isWordChar, Bool.or_eq_true, Bool.and_eq_true, decide_eq_true_eq] at h
  simp only [isJsSpace, Bool.or_eq_false_iff, Bool.and_eq_false_iff,
    decide_eq_false_iff_not]
  omega

theorem hyphen_not_space : isJsSpace '-' = false := by decide

theorem hyphen_not_upper : Char.isUpper '-' = false := by decide

theorem splitLines_ne_nil (s : List Char) : splitLines s ≠ [] := by
  match s with
  | [] => simp [splitLines]
  | c :: rest =>
    rw [splitLines]
    split
    · simp
    · cases h : splitLines rest <;> simp

theorem sumLens_splitLines (s : List Char) :
    sumLens (splitLines s) = s.length + 1 := by
  induction s with
  | nil => simp [splitLines, sumLens]
  | cons c rest ih =>
    rw [splitLines]
    split
    · simp only [sumLens, List.length_cons, List.length_nil]
      omega
    · cases h : splitLines rest with
      | nil => exact absurd h (splitLines_ne_nil rest)
      | cons l ls =>
        rw [h] at ih
        simp only [sumLens, List.length_cons] at ih ⊢
        omega

theorem collapseRuns_singleton_pos (p : Char → Bool) (r : Char) (c : Char)
    (hp : p c = true) : collapseRuns p r [c] = [r] := by
  simp [collapseRuns, hp]

theorem collapseRuns_cons_pos_pos (p : Char → Bool) (r : Char) (c d : Char)
    (t : List Char) (hp : p c = true) (hd : p d = true) :
    collapseRuns p r (c :: d :: t) = collapseRuns p r (d :: t) := by
  rw [collapseRuns.eq_def]
  simp [hp, hd]

theorem collapseRuns_cons_pos_neg (p : Char → Bool) (r : Char) (c d : Char)
    (t : List Char) (hp : p c = true) (hd : p d = false) :
    collapseRuns p r (c :: d :: t) = r :: collapseRuns p r (d :: t) := by
  rw [collapseRuns.eq_def]
  simp [hp, hd]

theorem collapseRuns_cons_neg (p : Char → Bool) (r : Char) (c : Char)
    (t : List Char) (hp : p c = false) :
    collapseRuns p r (c :: t) = c :: collapseRuns p r t := by
  rw [collapseRuns.eq_def]
  simp [hp]

theorem mem_collapseRuns (p : Char → Bool) (r : Char) (l : List Char) :
    ∀ c ∈ collapseRuns p r l, c = r ∨ (c ∈ l ∧ p c = false) := by
  induction l with
  | nil => simp [collapseRuns]
  | cons c rest ih =>
    intro x hx
    by_cases hp : p c
    · cases rest with
      | nil =>
        rw [collapseRuns_singleton_pos p r c hp] at hx
        simp at hx
        exact Or.inl hx
      | cons d rest2 =>
        by_cases hd : p d
        · rw [collapseRuns_cons_pos_pos p r c d rest2 hp hd] at hx
          rcases ih x hx with h | ⟨hm, hpf⟩
          · exact Or.inl h
          · exact Or.inr ⟨List.mem_cons_of_mem _ hm, hpf⟩
        · rw [collapseRuns_cons_pos_neg p r c d rest2 hp (by simpa using hd)] at hx
          rcases List.mem_cons.mp hx with rfl | hx2
          · exact Or.inl rfl
          · rcases ih x hx2 with h | ⟨hm, hpf⟩
            · exact Or.inl h
            · exact Or.inr ⟨List.mem_cons_of_mem _ hm, hpf⟩
    · rw [collapseRuns_cons_neg p r c rest (by simpa using hp)] at hx
      rcases List.mem_cons.mp hx with rfl | hx2
      · exact Or.inr ⟨List.mem_cons_self _ _, by simpa using hp⟩
      · rcases ih x hx2 with h | ⟨hm, hpf⟩
        · exact Or.inl h
        · exact Or.inr ⟨List.mem_cons_of_mem _ hm, hpf⟩

theorem collapseRuns_eq_self (p : Char → Bool) (r : Char) (l : List Char)
    (h : ∀ c ∈ l, p c = false) : collapseRuns p r l = l := by
  induction l with
  | nil => rfl
  | cons c rest ih =>
    rw [collapseRuns_cons_neg p r c rest (h c (List.mem_cons_self _ _))]
    rw [ih (fun x hx => h x (List.mem_cons_of_mem _ hx))]

theorem chain_collapseRuns (p : Char → Bool) (r : Char) (l : List Char) :
    List.Chain' (fun a b => ¬(p a = true ∧ p b = true)) (collapseRuns p r l) := by
  induction l with
  | nil => simp [collapseRuns]
  | cons c rest ih =>
    by_cases hp : p c
    · cases rest with
      | nil =>
        rw [collapseRuns_singleton_pos p r c hp]
        simp
      | cons d rest2 =>
        by_cases hd : p d
        · rwa [collapseRuns_cons_pos_pos p r c d rest2 hp hd]
        · rw [collapseRuns_cons_pos_neg p r c d rest2 hp (by simpa using hd)]
          rw [collapseRuns_cons_neg p r d rest2 (by simpa using hd)] at ih ⊢
          exact List.Chain'.cons (by simp [hd]) ih
    · rw [collapseRuns_cons_neg p r c rest (by simpa using hp)]
      cases h : collapseRuns p r rest with
      | nil => simp
      | cons e tl =>
        rw [h] at ih
        exact List.Chain'.cons (by simp [hp]) ih

theorem collapseRuns_eq_self_of_chain (p : Char → Bool) (r : Char)
    (hr : ∀ c, p c = true → c = r) (l : List Char)
    (hchain : List.Chain' (fun a b => ¬(p a = true ∧ p b = true)) l) :
    collapseRuns p r l = l := by
  induction l with
  | nil => rfl
  | cons c rest ih =>
    by_cases hp : p c
    · cases rest with
      | nil =>
        rw [collapseRuns_singleton_pos p r c hp, hr c hp]
      | cons d rest2 =>
        have hrel := List.chain'_cons.mp hchain
        have hd : p d = false := by
          rcases Bool.eq_false_or_eq_true (p d) with h | h
          · exact absurd ⟨hp, h⟩ hrel.1
          · exact h
        rw [collapseRuns_cons_pos_neg p r c d rest2 hp hd, hr c hp, ih hrel.2]
    · cases rest with
      | nil =>
        rw [collapseRuns_cons_neg p r c [] (by simpa using hp)]
        rfl
      | cons d rest2 =>
        rw [collapseRuns_cons_neg p r c (d :: rest2) (by simpa using hp)]
        rw [ih (List.chain'_cons.mp hchain).2]

theorem dropLeadHyphen_eq (l : List Char) :
    (l.head? = some '-' ∧ dropLeadHyphen l = l.tail) ∨
    (l.head? ≠ some '-' ∧ dropLeadHyphen l = l) := by
  match l with
  | [] => exact Or.inr ⟨by simp, rfl⟩
  | c :: rest =>
    by_cases hc : c = '-'
    · subst hc
      exact Or.inl ⟨rfl, rfl⟩
    · right
      refine ⟨by simpa using hc, ?_⟩
      rw [dropLeadHyphen.eq_def]
      split
      · rename_i heq
        rw [List.cons.injEq] at heq
        exact absurd heq.1 hc
      · rfl

theorem mem_dropLeadHyphen (l : List Char) :
    ∀ c ∈ dropLeadHyphen l, c ∈ l := by
  intro c hc
  rcases dropLeadHyphen_eq l with ⟨_, he⟩ | ⟨_, he⟩
  · rw [he] at hc
    exact List.mem_of_mem_tail hc
  · rwa [he] at hc

theorem chain_dropLeadHyphen (R : Char → Char → Prop) (l : List Char)
    (h : List.Chain' R l) : List.Chain' R (dropLeadHyphen l) := by
  rcases dropLeadHyphen_eq l with ⟨_, he⟩ | ⟨_, he⟩
  · rw [he]
    exact h.tail
  · rwa [he]

theorem head_dropLeadHyphen (l : List Char)
    (h : List.Chain' (fun a b => ¬(a = '-' ∧ b = '-')) l) :
    (dropLeadHyphen l).head? ≠ some '-' := by
  rcases dropLeadHyphen_eq l with ⟨hh, he⟩ | ⟨hh, he⟩
  · rw [he]
    match l, hh with
    | c :: rest, hh =>
      have hc : c = '-' := by simpa using hh
      subst hc
      match rest with
      | [] => simp
      | d :: rest2 =>
        intro hd
        have hd2 : d = '-' := by simpa using hd
        subst hd2
        exact (List.chain'_cons.mp h).1 ⟨rfl, rfl⟩
  · rwa [he]

theorem getLast_dropLeadHyphen (l : List Char) :
    (dropLeadHyphen l).getLast? = l.getLast? ∨ dropLeadHyphen l = [] := by
  match l with
  | [] => exact Or.inr rfl
  | c :: rest =>
    by_cases hc : c = '-'
    · subst hc
      match rest with
      | [] => exact Or.inr rfl
      | d :: rest2 =>
        left
        show (d :: rest2).getLast? = ('-' :: d :: rest2).getLast?
        rw [List.getLast?_cons_cons]
    · left
      rcases dropLeadHyphen_eq (c :: rest) with ⟨hh, _⟩ | ⟨_, he⟩
      · exact absurd (by simpa using hh) hc
      · rw [he]

theorem chain_hh_reverse (l : List Char)
    (h : List.Chain' (fun a b => ¬(a = '-' ∧ b = '-')) l) :
    List.Chain' (fun a b => ¬(a = '-' ∧ b = '-')) l.reverse := by
  rw [List.chain'_reverse]
  exact h.imp (fun _ _ hab hba => hab ⟨hba.2, hba.1⟩)

theorem mem_trimEdgeHyphens (l : List Char) :
    ∀ c ∈ trimEdgeHyphens l, c ∈ l := by
  intro c hc
  unfold trimEdgeHyphens at hc
  rw [List.mem_reverse] at hc
  have h2 := mem_dropLeadHyphen _ _ hc
  rw [List.mem_reverse] at h2
  exact mem_dropLeadHyphen _ _ h2

theorem chain_trimEdgeHyphens (l : List Char)
    (h : List.Chain' (fun a b => ¬(a = '-' ∧ b = '-')) l) :
    List.Chain' (fun a b => ¬(a = '-' ∧ b = '-')) (trimEdgeHyphens l) := by
  unfold trimEdgeHyphens
  exact chain_hh_reverse _ (chain_dropLeadHyphen _ _ (chain_hh_reverse _ (chain_dropLeadHyphen _ _ h)))

theorem last_trimEdgeHyphens (l : List Char)
    (h : List.Chain' (fun a b => ¬(a = '-' ∧ b = '-')) l) :
    (trimEdgeHyphens l).getLast? ≠ some '-' := by
  unfold trimEdgeHyphens
  rw [List.getLast?_reverse]
  exact head_dropLeadHyphen _ (chain_hh_reverse _ (chain_dropLeadHyphen _ _ h))

theorem head_trimEdgeHyphens (l : List Char)
    (h : List.Chain' (fun a b => ¬(a = '-' ∧ b = '-')) l) :
    (trimEdgeHyphens l).head? ≠ some '-' := by
  unfold trimEdgeHyphens
  rw [List.head?_reverse]
  rcases getLast_dropLeadHyphen ((dropLeadHyphen l).reverse) with he | he
  · rw [he, List.getLast?_reverse]
    exact head_dropLeadHyphen l h
  · rw [he]
    simp

theorem trimEdgeHyphens_eq_self (l : List Char)
    (hh : l.head? ≠ some '-') (hl : l.getLast? ≠ some '-') :
    trimEdgeHyphens l = l := by
  unfold trimEdgeHyphens
  have h1 : dropLeadHyphen l = l := by
    rcases dropLeadHyphen_eq l with ⟨ha, _⟩ | ⟨_, he⟩
    · exact absurd ha hh
    · exact he
  rw [h1]
  have h2 : dropLeadHyphen l.reverse = l.reverse := by
    rcases dropLeadHyphen_eq l.reverse with ⟨ha, _⟩ | ⟨_, he⟩
    · rw [List.head?_reverse] at ha
      exact absurd ha hl
    · exact he
  rw [h2, List.reverse_reverse]

theorem map_eq_self_of (f : Char → Char) (l : List Char)
    (h : ∀ c ∈ l, f c = c) : l.map f = l := by
  induction l with
  | nil => rfl
  | cons c rest ih =>
    rw [List.map_cons, h c (List.mem_cons_self _ _),
      ih (fun x hx => h x (List.mem_cons_of_mem _ hx))]

theorem filter_eq_self_of (p : Char → Bool) (l : List Char)
    (h : ∀ c ∈ l, p c = true) : l.filter p = l := by
  induction l with
  | nil => rfl
  | cons c rest ih =>
    rw [List.filter_cons_of_pos (h c (List.mem_cons_self _ _)),
      ih (fun x hx => h x (List.mem_cons_of_mem _ hx))]

theorem generateHeadingId_eq_self (l : List Char)
    (hchar : ∀ c ∈ l, (isWordChar c = true ∧ c.isUpper = false) ∨ c = '-')
    (hchain : List.Chain' (fun a b => ¬(a = '-' ∧ b = '-')) l)
    (hhd : l.head? ≠ some '-') (hls : l.getLast? ≠ some '-') :
    generateHeadingId l = l := by
  unfold generateHeadingId
  have h1 : l.map Char.toLower = l := by
    apply map_eq_self_of
    intro c hc
    rcases hchar c hc with ⟨_, hu⟩ | rfl
    · exact toLower_eq_self c hu
    · exact toLower_eq_self _ hyphen_not_upper
  rw [h1]
  have h2 : l.filter (fun c => isWordChar c || isJsSpace c || decide (c = '-')) = l := by
    apply filter_eq_self_of
    intro c hc
    rcases hchar c hc with ⟨hw, _⟩ | rfl
    · simp [hw]
    · simp
  rw [h2]
  have h3 : collapseRuns isJsSpace '-' l = l := by
    apply collapseRuns_eq_self
    intro c hc
    rcases hchar c hc with ⟨hw, _⟩ | rfl
    · exact word_not_space c hw
    · exact hyphen_not_space
  rw [h3]
  have h4 : collapseRuns (fun c => decide (c = '-')) '-' l = l := by
    apply collapseRuns_eq_self_of_chain
    · intro c hc
      simpa using hc
    · exact hchain.imp (fun _ _ hab hd => hab (by
        simpa using hd))
  rw [h4]
  exact trimEdgeHyphens_eq_self l hhd hls

/-- C7: for every heading text, the id produced by `generateHeadingId`
contains only lowercase word characters and hyphens, has no leading,
trailing or doubled hyphen, and re-deriving an id from an already
derived id returns it unchanged (idempotence). -/
theorem c7_generateHeadingId_normalized_idempotent (text : List Char) :
    (∀ c ∈ generateHeadingId text, (isWordChar c = true ∧ c.isUpper = false) ∨ c = '-') ∧
    (generateHeadingId text).head? ≠ some '-' ∧
    (generateHeadingId text).getLast? ≠ some '-' ∧
    List.Chain' (fun a b => ¬(a = '-' ∧ b = '-')) (generateHeadingId text) ∧
    generateHeadingId (generateHeadingId text) = generateHeadingId text := by
  have hchar0 : ∀ c ∈ (text.map Char.toLower).filter
      (fun c => isWordChar c || isJsSpace c || decide (c = '-')), c.isUpper = false := by
    intro c hc
    have hm := List.mem_of_mem_filter hc
    rcases List.mem_map.mp hm with ⟨d, _, rfl⟩
    exact toLower_not_upper d
  set l0 := (text.map Char.toLower).filter
      (fun c => isWordChar c || isJsSpace c || decide (c = '-')) with hl0
  set l1 := collapseRuns isJsSpace '-' l0 with hl1
  set l2 := collapseRuns (fun c => decide (c = '-')) '-' l1 with hl2
  have hchar1 : ∀ c ∈ l1, (isWordChar c = true ∧ c.isUpper = false) ∨ c = '-' := by
    intro c hc
    rcases mem_collapseRuns _ _ _ c hc with rfl | ⟨hm, hsp⟩
    · exact Or.inr rfl
    · have hpred := List.of_mem_filter hm
      simp only [Bool.or_eq_true, decide_eq_true_eq] at hpred
      rcases hpred with (hw | hs) | hd
      · exact Or.inl ⟨hw, hchar0 c hm⟩
      · rw [hs] at hsp
        cases hsp
      · exact Or.inr hd
  have hchar2 : ∀ c ∈ l2, (isWordChar c = true ∧ c.isUpper = false) ∨ c = '-' := by
    intro c hc
    rcases mem_collapseRuns _ _ _ c hc with rfl | ⟨hm, _⟩
    · exact Or.inr rfl
    · exact hchar1 c hm
  have hchain2 : List.Chain' (fun a b => ¬(a = '-' ∧ b = '-')) l2 := by
    have := chain_collapseRuns (fun c => decide (c = '-')) '-' l1
    exact this.imp (fun _ _ hab hd => hab ⟨by simp [hd.1], by simp [hd.2]⟩)
  have hres : generateHeadingId text = trimEdgeHyphens l2 := rfl
  refine ⟨?_, ?_, ?_, ?_, ?_⟩
  · intro c hc
    rw [hres] at hc
    exact hchar2 c (mem_trimEdgeHyphens _ c hc)
  · rw [hres]
    exact head_trimEdgeHyphens _ hchain2
  · rw [hres]
    exact last_trimEdgeHyphens _ hchain2
  · rw [hres]
    exact chain_trimEdgeHyphens _ hchain2
  · apply generateHeadingId_eq_self
    · intro c hc
      rw [hres] at hc
      exact hchar2 c (mem_trimEdgeHyphens _ c hc)
    · rw [hres]
      exact chain_trimEdgeHyphens _ hchain2
    · rw [hres]
      exact head_trimEdgeHyphens _ hchain2
    · rw [hres]
      exact last_trimEdgeHyphens _ hchain2

set_option maxHeartbeats 2000000 in
/-- C3 counterexample: the source stemmer sends "authentication" to
"authenticat", not to "authent" as the claim's example states. -/
theorem c3_counterexample_authentication :
    englishStemmer ("authentication".toList) = ("authenticat".toList) ∧
    ("authenticat".toList) ≠ ("authent".toList) := by
  constructor
  · decide
  · decide

set_option maxHeartbeats 2000000 in
/-- C3 (amended): tokens of length at most 3 pass through the stemmer
unchanged; longer tokens get exactly the spec's ordered suffix rules;
and stemming "authentication" yields "authenticat" (the claim's stated
image "authent" is what fails). -/
theorem c3_stemmer_follows_spec_rules :
    (∀ w : List Char, w.length ≤ 3 → englishStemmer w = w) ∧
    (∀ w : List Char, 3 < w.length → englishStemmer w = specStemmer w) ∧
    englishStemmer ("authentication".toList) = ("authenticat".toList) := by
  refine ⟨?_, ?_, by decide⟩
  · intro w hw
    rw [englishStemmer, if_pos hw]
  · intro w hw
    rw [englishStemmer, if_neg (by omega)]
    unfold specStemmer specStemRuleList
    simp only [List.foldl_cons, List.foldl_nil, applyStemRule]

set_option maxHeartbeats 2000000 in
/-- Witness instantiating the amended C3 theorem's hypotheses at
concrete words. -/
theorem c3_stemmer_follows_spec_rules_witness :
    englishStemmer ("the".toList) = ("the".toList) ∧
    englishStemmer ("walking".toList) = specStemmer ("walking".toList) :=
  ⟨c3_stemmer_follows_spec_rules.1 ("the".toList) (by decide),
   c3_stemmer_follows_spec_rules.2.1 ("walking".toList) (by decide)⟩

theorem parseHeadingLine_some_length (l : List Char) (k : Nat) (t : List Char)
    (a : Option (List Char)) (hp : parseHeadingLine l = some (k, t, a)) :
    3 ≤ l.length := by
  unfold parseHeadingLine at hp
  by_cases h1 : 1 ≤ (l.takeWhile (fun c => c = '#')).length ∧
      (l.takeWhile (fun c => c = '#')).length ≤ 6
  · rw [if_pos h1] at hp
    have hkle : (l.takeWhile (fun c => c = '#')).length ≤ l.length :=
      (List.takeWhile_sublist _).length_le
    have hwle : ((l.drop (l.takeWhile (fun c => c = '#')).length).takeWhile
        isJsSpace).length ≤ (l.drop (l.takeWhile (fun c => c = '#')).length).length :=
      (List.takeWhile_sublist _).length_le
    have hrest : (l.drop (l.takeWhile (fun c => c = '#')).length).length =
        l.length - (l.takeWhile (fun c => c = '#')).length := List.length_drop _ _
    by_cases h2 : ((l.drop (l.takeWhile (fun c => c = '#')).length).takeWhile
        isJsSpace).length = 0
    · rw [if_pos h2] at hp
      cases hp
    · rw [if_neg h2] at hp
      have hcontent : ((l.drop (l.takeWhile (fun c => c = '#')).length).drop
          ((l.drop (l.takeWhile (fun c => c = '#')).length).takeWhile
            isJsSpace).length).length =
          (l.drop (l.takeWhile (fun c => c = '#')).length).length -
          ((l.drop (l.takeWhile (fun c => c = '#')).length).takeWhile
            isJsSpace).length := List.length_drop _ _
      cases hc : (l.drop (l.takeWhile (fun c => c = '#')).length).drop
          ((l.drop (l.takeWhile (fun c => c = '#')).length).takeWhile
            isJsSpace).length with
      | nil =>
        rw [hc] at hp
        by_cases h3 : 2 ≤ ((l.drop (l.takeWhile (fun c => c = '#')).length).takeWhile
            isJsSpace).length
        · rw [hc] at hcontent
          simp only [List.length_nil] at hcontent
          omega
        · rw [if_neg h3] at hp
          cases hp
      | cons c cs =>
        rw [hc] at hp hcontent
        simp only [List.length_cons] at hcontent
        omega
  · rw [if_neg h1] at hp
    cases hp

theorem scanHeadings_cons_some (l : List Char) (ls : List (List Char)) (off : Nat)
    (k : Nat) (t : List Char) (a : Option (List Char))
    (hpl : parseHeadingLine l = some (k, t, a)) :
    scanHeadings (l :: ls) off =
      mkHeading k t a off :: scanHeadings ls (off + l.length + 1) := by
  rw [scanHeadings.eq_def]
  simp only [hpl]

theorem scanHeadings_cons_none (l : List Char) (ls : List (List Char)) (off : Nat)
    (hpl : parseHeadingLine l = none) :
    scanHeadings (l :: ls) off = scanHeadings ls (off + l.length + 1) := by
  rw [scanHeadings.eq_def]
  simp only [hpl]

theorem scanHeadings_bounds (lines : List (List Char)) :
    ∀ (off : Nat), ∀ h ∈ scanHeadings lines off,
      off ≤ h.startOffset ∧ h.startOffset + 3 ≤ off + sumLens lines := by
  induction lines with
  | nil =>
    intro off h hh
    simp [scanHeadings] at hh
  | cons l ls ih =>
    intro off h hh
    cases hpl : parseHeadingLine l with
    | none =>
      rw [scanHeadings_cons_none l ls off hpl] at hh
      have := ih (off + l.length + 1) h hh
      simp only [sumLens]
      omega
    | some v =>
      obtain ⟨k, t, a⟩ := v
      rw [scanHeadings_cons_some l ls off k t a hpl] at hh
      have hllen : 3 ≤ l.length := parseHeadingLine_some_length l k t a hpl
      rcases List.mem_cons.mp hh with rfl | hh2
      · simp only [sumLens, mkHeading]
        omega
      · have := ih (off + l.length + 1) h hh2
        simp only [sumLens]
        omega

theorem scanHeadings_pairwise (lines : List (List Char)) :
    ∀ (off : Nat), List.Pairwise (fun a b => a.startOffset < b.startOffset)
      (scanHeadings lines off) := by
  induction lines with
  | nil =>
    intro off
    simp [scanHeadings]
  | cons l ls ih =>
    intro off
    cases hpl : parseHeadingLine l with
    | none =>
      rw [scanHeadings_cons_none l ls off hpl]
      exact ih _
    | some v =>
      obtain ⟨k, t, a⟩ := v
      rw [scanHeadings_cons_some l ls off k t a hpl]
      refine List.Pairwise.cons ?_ (ih _)
      intro b hb
      have := (scanHeadings_bounds ls (off + l.length + 1) b hb).1
      have hllen : 3 ≤ l.length := parseHeadingLine_some_length l k t a hpl
      simp only [mkHeading]
      omega

theorem setEndOffsets_map_key (hs : List DocHeading) (len : Nat) :
    (setEndOffsets hs len).map headingKey = hs.map headingKey := by
  induction hs with
  | nil => rfl
  | cons h t ih =>
    rw [setEndOffsets, List.map_cons, List.map_cons, ih]
    rfl

theorem setEndOffsets_decomp (len : Nat) (pre : List DocHeading) :
    ∀ (hs : List DocHeading) (cur : DocHeading) (post : List DocHeading),
      setEndOffsets hs len = pre ++ cur :: post →
      ∃ pre0 cur0 post0, hs = pre0 ++ cur0 :: post0 ∧
        cur = { cur0 with endOffset := computeEndOffset cur0.level post0 len } ∧
        post = setEndOffsets post0 len := by
  induction pre with
  | nil =>
    intro hs cur post h
    cases hs with
    | nil => simp [setEndOffsets] at h
    | cons h0 t =>
      rw [setEndOffsets] at h
      rw [List.nil_append] at h
      have h2 := List.cons.injEq _ _ _ _ ▸ h
      rw [List.cons.injEq] at h
      exact ⟨[], h0, t, rfl, h.1.symm, h.2.symm⟩
  | cons p pre' ih =>
    intro hs cur post h
    cases hs with
    | nil => simp [setEndOffsets] at h
    | cons h0 t =>
      rw [setEndOffsets, List.cons_append, List.cons.injEq] at h
      obtain ⟨pre0, cur0, post0, ht, hcur, hpost⟩ := ih t cur post h.2
      exact ⟨h0 :: pre0, cur0, post0, by rw [ht, List.cons_append], hcur, hpost⟩

theorem setEndOffsets_append (xs ys : List DocHeading) (len : Nat) :
    ∃ xs2, setEndOffsets (xs ++ ys) len = xs2 ++ setEndOffsets ys len ∧
      xs2.map headingKey = xs.map headingKey := by
  induction xs with
  | nil => exact ⟨[], rfl, rfl⟩
  | cons x xs' ih =>
    obtain ⟨xs2, he, hk⟩ := ih
    refine ⟨{ x with endOffset := computeEndOffset x.level (xs' ++ ys) len } :: xs2, ?_, ?_⟩
    · rw [List.cons_append, setEndOffsets, he, List.cons_append]
    · rw [List.map_cons, List.map_cons, hk]
      rfl

theorem computeEndOffset_spec (level : Nat) (len : Nat) :
    ∀ (rest : List DocHeading),
      (∃ mid next post2, rest = mid ++ next :: post2 ∧ next.level ≤ level ∧
          computeEndOffset level rest len = next.startOffset ∧
          ∀ g ∈ mid, level < g.level) ∨
      (computeEndOffset level rest len = len ∧ ∀ g ∈ rest, level < g.level) := by
  intro rest
  induction rest with
  | nil =>
    right
    exact ⟨rfl, by simp⟩
  | cons h t ih =>
    by_cases hl : h.level ≤ level
    · left
      refine ⟨[], h, t, rfl, hl, ?_, by simp⟩
      rw [computeEndOffset, if_pos hl]
    · have hstep : computeEndOffset level (h :: t) len = computeEndOffset level t len := by
        rw [computeEndOffset, if_neg hl]
      rcases ih with ⟨mid, next, post2, hdec, hle, hval, hmid⟩ | ⟨hval, hall⟩
      · left
        refine ⟨h :: mid, next, post2, by rw [hdec, List.cons_append], hle, ?_, ?_⟩
        · rw [hstep, hval]
        · intro g hg
          rcases List.mem_cons.mp hg with rfl | hg2
          · omega
          · exact hmid g hg2
      · right
        refine ⟨by rw [hstep, hval], ?_⟩
        intro g hg
        rcases List.mem_cons.mp hg with rfl | hg2
        · omega
        · exact hall g hg2

/-- C1: for every markdown string, each heading returned by
`extractHeadingsFromMarkdown` has as `endOffset` the `startOffset` of
the first subsequent heading whose level is at most its own, or the
length of the markdown when no such heading exists; consequently
`startOffset ≤ endOffset ≤ markdown.length` (the lower bound
`0 ≤ startOffset` is inherent to the `Nat` model). -/
theorem c1_extractHeadings_endOffsets (markdown : List Char)
    (pre : List DocHeading) (cur : DocHeading) (post : List DocHeading)
    (hdec : extractHeadingsFromMarkdown markdown = pre ++ cur :: post) :
    ((∃ mid next post2, post = mid ++ next :: post2 ∧ next.level ≤ cur.level ∧
        cur.endOffset = next.startOffset ∧ ∀ g ∈ mid, cur.level < g.level) ∨
      (cur.endOffset = markdown.length ∧ ∀ g ∈ post, cur.level < g.level)) ∧
    cur.startOffset ≤ cur.endOffset ∧ cur.endOffset ≤ markdown.length := by
  unfold extractHeadingsFromMarkdown at hdec
  obtain ⟨pre0, cur0, post0, hhs, hcur, hpost⟩ :=
    setEndOffsets_decomp markdown.length pre _ cur post hdec
  have hb := scanHeadings_bounds (splitLines markdown) 0
  have hsum := sumLens_splitLines markdown
  have hcur0mem : cur0 ∈ scanHeadings (splitLines markdown) 0 := by
    rw [hhs]
    exact List.mem_append_right _ (List.mem_cons_self _ _)
  have hcurb := hb cur0 hcur0mem
  have hpw := scanHeadings_pairwise (splitLines markdown) 0
  rw [hhs] at hpw
  have hpw2 := (List.pairwise_append.mp hpw).2.1
  have hcur_post0 : ∀ b ∈ post0, cur0.startOffset < b.startOffset :=
    (List.pairwise_cons.mp hpw2).1
  have hlev : cur.level = cur0.level := by rw [hcur]
  have hstart : cur.startOffset = cur0.startOffset := by rw [hcur]
  have hend : cur.endOffset = computeEndOffset cur0.level post0 markdown.length := by
    rw [hcur]
  rcases computeEndOffset_spec cur0.level markdown.length post0 with
    ⟨mid0, next0, post2, hdec0, hle0, hval0, hmid0⟩ | ⟨hval0, hall0⟩
  · have hnext0mem : next0 ∈ scanHeadings (splitLines markdown) 0 := by
      rw [hhs, hdec0]
      exact List.mem_append_right _ (List.mem_cons_of_mem _
        (List.mem_append_right _ (List.mem_cons_self _ _)))
    have hnextb := hb next0 hnext0mem
    have hlt : cur0.startOffset < next0.startOffset := by
      apply hcur_post0
      rw [hdec0]
      exact List.mem_append_right _ (List.mem_cons_self _ _)
    obtain ⟨mid, happ, hkey⟩ := setEndOffsets_append mid0 (next0 :: post2) markdown.length
    have hpost2 : post = mid ++
        ({ next0 with endOffset := computeEndOffset next0.level post2 markdown.length } ::
          setEndOffsets post2 markdown.length) := by
      rw [hpost, hdec0, happ, setEndOffsets]
    refine ⟨Or.inl ⟨mid, _, setEndOffsets post2 markdown.length, hpost2, ?_, ?_, ?_⟩, ?_, ?_⟩
    · rw [hlev]
      exact hle0
    · rw [hend, hval0]
    · intro g hg
      have hmem : headingKey g ∈ mid.map headingKey := List.mem_map_of_mem _ hg
      rw [hkey] at hmem
      obtain ⟨g0, hg0mem, hg0key⟩ := List.mem_map.mp hmem
      have hgl : g0.level = g.level := congrArg Prod.fst hg0key
      rw [hlev, ← hgl]
      exact hmid0 g0 hg0mem
    · rw [hstart, hend, hval0]
      omega
    · rw [hend, hval0]
      omega
  · refine ⟨Or.inr ⟨by rw [hend, hval0], ?_⟩, ?_, ?_⟩
    · intro g hg
      rw [hpost] at hg
      have hmem : headingKey g ∈ (setEndOffsets post0 markdown.length).map headingKey :=
        List.mem_map_of_mem _ hg
      rw [setEndOffsets_map_key] at hmem
      obtain ⟨g0, hg0mem, hg0key⟩ := List.mem_map.mp hmem
      have hgl : g0.level = g.level := congrArg Prod.fst hg0key
      rw [hlev, ← hgl]
      exact hall0 g0 hg0mem
    · rw [hstart, hend, hval0]
      omega
    · rw [hend, hval0]

set_option maxHeartbeats 4000000 in
/-- Witness instantiating C1 on the document "# A\n\n## B\n# C": the
level-1 heading at offset 0 ends at offset 10, the start of the next
level-1 heading. -/
theorem c1_extractHeadings_endOffsets_witness :
    ((∃ mid next post2,
        ([⟨2, "B".toList, "b".toList, 5, 10⟩,
          ⟨1, "C".toList, "c".toList, 10, 13⟩] : List DocHeading) =
          mid ++ next :: post2 ∧
        next.level ≤ (⟨1, "A".toList, "a".toList, 0, 10⟩ : DocHeading).level ∧
        (⟨1, "A".toList, "a".toList, 0, 10⟩ : DocHeading).endOffset = next.startOffset ∧
        ∀ g ∈ mid, (⟨1, "A".toList, "a".toList, 0, 10⟩ : DocHeading).level < g.level) ∨
      ((⟨1, "A".toList, "a".toList, 0, 10⟩ : DocHeading).endOffset =
          ("# A\n\n## B\n# C".toList).length ∧
        ∀ g ∈ ([⟨2, "B".toList, "b".toList, 5, 10⟩,
          ⟨1, "C".toList, "c".toList, 10, 13⟩] : List DocHeading),
          (⟨1, "A".toList, "a".toList, 0, 10⟩ : DocHeading).level < g.level)) ∧
    (⟨1, "A".toList, "a".toList, 0, 10⟩ : DocHeading).startOffset ≤
      (⟨1, "A".toList, "a".toList, 0, 10⟩ : DocHeading).endOffset ∧
    (⟨1, "A".toList, "a".toList, 0, 10⟩ : DocHeading).endOffset ≤
      ("# A\n\n## B\n# C".toList).length :=
  c1_extractHeadings_endOffsets ("# A\n\n## B\n# C".toList) []
    ⟨1, "A".toList, "a".toList, 0, 10⟩
    [⟨2, "B".toList, "b".toList, 5, 10⟩, ⟨1, "C".toList, "c".toList, 10, 13⟩]
    (by decide)

theorem executeDocsGetSection_normalized (docs : List (List Char × ProcessedDoc))
    (headingId r1 r2 : List Char) (h1 : r1 ≠ []) (h2 : r2 ≠ [])
    (hn : normalizeRoute r1 = normalizeRoute r2) :
    executeDocsGetSection r1 headingId docs = executeDocsGetSection r2 headingId docs := by
  unfold executeDocsGetSection
  rw [if_neg h1, if_neg h2, hn]

/-- C10: `executeDocsGetSection` resolves the document under the
normalized route key (trim, prepend a missing leading slash, strip one
trailing slash when longer than "/"), so "docs/page", "/docs/page" and
"/docs/page/" all resolve to the same document. -/
theorem c10_route_normalization (docs : List (List Char × ProcessedDoc))
    (headingId : List Char) (hh : headingId ≠ []) :
    normalizeRoute ("docs/page".toList) = "/docs/page".toList ∧
    normalizeRoute ("/docs/page".toList) = "/docs/page".toList ∧
    normalizeRoute ("/docs/page/".toList) = "/docs/page".toList ∧
    executeDocsGetSection ("docs/page".toList) headingId docs =
      executeDocsGetSection ("/docs/page".toList) headingId docs ∧
    executeDocsGetSection ("/docs/page/".toList) headingId docs =
      executeDocsGetSection ("/docs/page".toList) headingId docs ∧
    ∀ route : List Char, route ≠ [] →
      ∃ result, executeDocsGetSection route headingId docs = Except.ok result ∧
        result.doc = lookupDoc docs (normalizeRoute route) := by
  refine ⟨by decide, by decide, by decide, ?_, ?_, ?_⟩
  · exact executeDocsGetSection_normalized docs headingId _ _ (by decide) (by decide) (by decide)
  · exact executeDocsGetSection_normalized docs headingId _ _ (by decide) (by decide) (by decide)
  · intro route hroute
    unfold executeDocsGetSection
    rw [if_neg hroute, if_neg hh]
    cases hl : lookupDoc docs (normalizeRoute route) with
    | none => exact ⟨⟨none, none, none, []⟩, rfl, rfl⟩
    | some doc =>
      cases hf : doc.headings.find? (fun h => h.id = jsTrim headingId) with
      | none =>
        simp only [hf]
        exact ⟨_, rfl, rfl⟩
      | some heading =>
        simp only [hf]
        exact ⟨_, rfl, rfl⟩

/-- Witness instantiating C10 at the route "docs/page" with an empty
docs map. -/
theorem c10_route_normalization_witness :
    normalizeRoute ("docs/page".toList) = "/docs/page".toList ∧
    ∃ result, executeDocsGetSection ("docs/page".toList) ("intro".toList) [] =
        Except.ok result ∧
      result.doc = lookupDoc [] (normalizeRoute ("docs/page".toList)) :=
  ⟨(c10_route_normalization [] ("intro".toList) (by decide)).1,
   (c10_route_normalization [] ("intro".toList) (by decide)).2.2.2.2.2
     ("docs/page".toList) (by decide)⟩

/-- C8: when the route resolves to a document but the heading id
matches none of its headings, `executeDocsGetSection` returns a
not-found result carrying every heading of the document as (id, text,
level), and `formatSectionContent` renders the requested id together
with the enumerated list of available sections. -/
theorem c8_get_section_not_found (docs : List (List Char × ProcessedDoc))
    (route headingId : List Char) (doc : ProcessedDoc)
    (hr : route ≠ []) (hh : headingId ≠ [])
    (hdoc : lookupDoc docs (normalizeRoute route) = some doc)
    (hmiss : ∀ h ∈ doc.headings, h.id ≠ jsTrim headingId) :
    executeDocsGetSection route headingId docs = Except.ok
      ⟨none, some doc, none, doc.headings.map (fun h => (h.id, h.text, h.level))⟩ ∧
    ∀ baseUrl, formatSectionContent
        ⟨none, some doc, none, doc.headings.map (fun h => (h.id, h.text, h.level))⟩
        headingId baseUrl =
      joinLines
        (("Section \"".toList ++ headingId ++ "\" not found in this document.".toList) ::
          [] :: "Available sections:".toList ::
          doc.headings.map (fun h =>
            List.replicate (2 * (h.level - 1)) ' ' ++ "- ".toList ++ h.text ++
              " (id: ".toList ++ h.id ++ ")".toList)) := by
  constructor
  · unfold executeDocsGetSection
    rw [if_neg hr, if_neg hh, hdoc]
    have hf : doc.headings.find? (fun h => h.id = jsTrim headingId) = none := by
      rw [List.find?_eq_none]
      intro h hm
      simpa using hmiss h hm
    simp only [hf]
  · intro baseUrl
    unfold formatSectionContent
    simp only []
    rw [if_pos (Or.inl trivial), List.map_map]
    rfl

set_option maxHeartbeats 1000000 in
/-- Witness instantiating C8 on a one-document map and the unmatched
heading id "nope". -/
theorem c8_get_section_not_found_witness :
    executeDocsGetSection ("docs/page".toList) ("nope".toList) sampleDocs = Except.ok
      ⟨none, some sampleDoc, none,
        sampleDoc.headings.map (fun h => (h.id, h.text, h.level))⟩ ∧
    formatSectionContent
      ⟨none, some sampleDoc, none,
        sampleDoc.headings.map (fun h => (h.id, h.text, h.level))⟩
      ("nope".toList) none =
    joinLines
      (("Section \"".toList ++ "nope".toList ++ "\" not found in this document.".toList) ::
        [] :: "Available sections:".toList ::
        sampleDoc.headings.map (fun h =>
          List.replicate (2 * (h.level - 1)) ' ' ++ "- ".toList ++ h.text ++
            " (id: ".toList ++ h.id ++ ")".toList)) :=
  have h := c8_get_section_not_found sampleDocs ("docs/page".toList) ("nope".toList)
    sampleDoc (by decide) (by decide) (by decide) (by decide)
  ⟨h.1, h.2 none⟩

theorem searchIndex_length_le (rawResults : List FieldResult)
    (docs : List (List Char × ProcessedDoc)) (query : List Char) (limit : Int) :
    (searchIndex rawResults docs query limit).length ≤ limit.toNat := by
  unfold searchIndex
  exact List.length_take_le _ _

/-- C5: a query that is empty or whitespace-only makes
`executeDocsSearch` throw, and in particular it never returns an empty
result list as a success. -/
theorem c5_empty_query_rejected (query : List Char) (limit : Int)
    (rawResults : List FieldResult) (docs : List (List Char × ProcessedDoc))
    (hq : jsTrim query = []) :
    executeDocsSearch query limit rawResults docs =
      Except.error ("Query parameter is required and must be a non-empty string".toList) ∧
    ¬∃ results, executeDocsSearch query limit rawResults docs = Except.ok results := by
  have he : executeDocsSearch query limit rawResults docs =
      Except.error ("Query parameter is required and must be a non-empty string".toList) := by
    unfold executeDocsSearch
    rw [if_pos (Or.inr (by rw [hq]; rfl))]
  refine ⟨he, ?_⟩
  rintro ⟨results, hr⟩
  rw [he] at hr
  cases hr

/-- Witness instantiating C5 on the whitespace-only query "   ". -/
theorem c5_empty_query_rejected_witness :
    executeDocsSearch ("   ".toList) 5 [] [] =
      Except.error ("Query parameter is required and must be a non-empty string".toList) ∧
    ¬∃ results, executeDocsSearch ("   ".toList) 5 [] [] = Except.ok results :=
  c5_empty_query_rejected ("   ".toList) 5 [] [] (by decide)

/-- C6: for a non-whitespace query, `executeDocsSearch` succeeds and
returns at most `min (max 1 limit) 20` results; with the default limit
5 it returns at most 5. -/
theorem c6_result_count_clamped (query : List Char) (limit : Int)
    (rawResults : List FieldResult) (docs : List (List Char × ProcessedDoc))
    (hq : jsTrim query ≠ []) :
    ∃ results, executeDocsSearch query limit rawResults docs = Except.ok results ∧
      (results.length : Int) ≤ min (max 1 limit) 20 ∧
      (limit = 5 → results.length ≤ 5) := by
  have hcond : ¬(query = [] ∨ (jsTrim query).length = 0) := by
    rintro (rfl | hlen)
    · exact hq rfl
    · exact hq (List.length_eq_zero.mp hlen)
  refine ⟨searchIndex rawResults docs (jsTrim query) (min (max 1 limit) 20), ?_, ?_, ?_⟩
  · unfold executeDocsSearch
    rw [if_neg hcond]
  · have h1 := searchIndex_length_le rawResults docs (jsTrim query) (min (max 1 limit) 20)
    omega
  · intro h5
    subst h5
    have h1 := searchIndex_length_le rawResults docs (jsTrim query) (min (max 1 (5 : Int)) 20)
    omega

/-- Witness instantiating C6 on the query "hi" with limit 7 and an
empty index. -/
theorem c6_result_count_clamped_witness :
    ∃ results, executeDocsSearch ("hi".toList) 7 [] [] = Except.ok results ∧
      (results.length : Int) ≤ min (max 1 (7 : Int)) 20 ∧
      ((7 : Int) = 5 → results.length ≤ 5) :=
  c6_result_count_clamped ("hi".toList) 7 [] [] (by decide)

theorem length_dropWhile_le (p : Char → Bool) (l : List Char) :
    (l.dropWhile p).length ≤ l.length := by
  induction l with
  | nil => simp
  | cons c rest ih =>
    rw [List.dropWhile_cons]
    split
    · simp only [List.length_cons]
      omega
    · simp

theorem jsTrim_length_le (l : List Char) : (jsTrim l).length ≤ l.length := by
  unfold jsTrim
  calc ((l.dropWhile isJsSpace).reverse.dropWhile isJsSpace).reverse.length
      = ((l.dropWhile isJsSpace).reverse.dropWhile isJsSpace).length := by
        rw [List.length_reverse]
    _ ≤ (l.dropWhile isJsSpace).reverse.length := length_dropWhile_le _ _
    _ = (l.dropWhile isJsSpace).length := by rw [List.length_reverse]
    _ ≤ l.length := length_dropWhile_le _ _

theorem collapseRuns_length_le (p : Char → Bool) (r : Char) (l : List Char) :
    (collapseRuns p r l).length ≤ l.length := by
  induction l with
  | nil => simp [collapseRuns]
  | cons c rest ih =>
    by_cases hp : p c
    · cases rest with
      | nil =>
        rw [collapseRuns_singleton_pos p r c hp]
        simp
      | cons d rest2 =>
        by_cases hd : p d
        · rw [collapseRuns_cons_pos_pos p r c d rest2 hp hd]
          simp only [List.length_cons] at ih ⊢
          omega
        · rw [collapseRuns_cons_pos_neg p r c d rest2 hp (by simpa using hd)]
          simp only [List.length_cons] at ih ⊢
          omega
    · rw [collapseRuns_cons_neg p r c rest (by simpa using hp)]
      simp only [List.length_cons]
      omega

theorem replaceScanFuel_length_le (f : List Char → Option (List Char × Nat))
    (hf : ∀ s rep k, f s = some (rep, k) → rep.length ≤ k + 1 ∧ rep.length ≤ s.length) :
    ∀ (fuel : Nat) (s : List Char), (replaceScanFuel f fuel s).length ≤ s.length := by
  intro fuel
  induction fuel with
  | zero =>
    intro s
    simp [replaceScanFuel]
  | succ n ih =>
    intro s
    cases s with
    | nil => simp [replaceScanFuel]
    | cons c rest =>
      rw [replaceScanFuel]
      cases hm : f (c :: rest) with
      | none =>
        simp only [List.length_cons]
        have := ih rest
        omega
      | some p =>
        obtain ⟨rep, k⟩ := p
        simp only [List.length_append, List.length_cons]
        obtain ⟨h1, h4⟩ := hf (c :: rest) rep k hm
        simp only [List.length_cons] at h4
        have h2 := ih (rest.drop k)
        have h3 : (rest.drop k).length = rest.length - k := List.length_drop _ _
        omega

theorem replaceScan_length_le (f : List Char → Option (List Char × Nat))
    (hf : ∀ s rep k, f s = some (rep, k) → rep.length ≤ k + 1 ∧ rep.length ≤ s.length)
    (s : List Char) :
    (replaceScan f s).length ≤ s.length :=
  replaceScanFuel_length_le f hf s.length s

theorem linkMatch_shrink :
    ∀ s rep k, linkMatch s = some (rep, k) → rep.length ≤ k + 1 ∧ rep.length ≤ s.length := by
  intro s rep k h
  unfold linkMatch at h
  split at h
  · rename_i rest
    simp only [] at h
    split at h
    · rename_i rest2
      split at h
      · rw [Option.some.injEq, Prod.mk.injEq] at h
        obtain ⟨h1, h2⟩ := h
        subst h1
        have hlen : (List.takeWhile (fun c => decide (c ≠ ']')) rest).length ≤ rest.length :=
          (List.takeWhile_sublist _).length_le
        constructor
        · omega
        · simp only [List.length_cons]
          omega
      · cases h
    · cases h
  · cases h

theorem imageMatch_shrink :
    ∀ s rep k, imageMatch s = some (rep, k) → rep.length ≤ k + 1 ∧ rep.length ≤ s.length := by
  intro s rep k h
  unfold imageMatch at h
  split at h
  · rename_i rest
    simp only [] at h
    split at h
    · rename_i rest2
      split at h
      · rw [Option.some.injEq, Prod.mk.injEq] at h
        obtain ⟨h1, h2⟩ := h
        subst h1
        simp
      · cases h
    · cases h
  · cases h

theorem fenceMatch_shrink :
    ∀ s rep k, fenceMatch s = some (rep, k) → rep.length ≤ k + 1 ∧ rep.length ≤ s.length := by
  intro s rep k h
  unfold fenceMatch at h
  split at h
  · split at h
    · simp only [] at h
      split at h
      · rw [Option.some.injEq, Prod.mk.injEq] at h
        obtain ⟨h1, h2⟩ := h
        subst h1
        simp
      · rw [Option.some.injEq, Prod.mk.injEq] at h
        obtain ⟨h1, h2⟩ := h
        subst h1
        simp
    · cases h
  · cases h

theorem surroundMatch_shrink (dchar : Char) (dcount : Nat) :
    ∀ s rep k, surroundMatch dchar dcount s = some (rep, k) →
      rep.length ≤ k + 1 ∧ rep.length ≤ s.length := by
  intro s rep k h
  unfold surroundMatch at h
  split at h
  · simp only [] at h
    split at h
    · rename_i hcond
      rw [Option.some.injEq, Prod.mk.injEq] at h
      obtain ⟨h1, h2⟩ := h
      subst h1
      obtain ⟨hinner, _⟩ := hcond
      have hlen : (List.takeWhile (fun c => decide (c ≠ dchar)) (s.drop dcount)).length ≤
          (s.drop dcount).length := (List.takeWhile_sublist _).length_le
      have hdrop : (s.drop dcount).length = s.length - dcount := List.length_drop _ _
      constructor
      · omega
      · omega
    · cases h
  · cases h

theorem joinLines_length (ls : List (List Char)) (h : ls ≠ []) :
    (joinLines ls).length + 1 = sumLens ls := by
  induction ls with
  | nil => exact absurd rfl h
  | cons l rest ih =>
    cases rest with
    | nil => simp [joinLines, sumLens]
    | cons l2 rest2 =>
      have heq : joinLines (l :: l2 :: rest2) = l ++ '\n' :: joinLines (l2 :: rest2) := rfl
      rw [heq]
      simp only [List.length_append, List.length_cons, sumLens]
      have := ih (by simp)
      simp only [sumLens] at this
      omega

theorem stripHeadingMarkerLine_length_le (l : List Char) :
    (stripHeadingMarkerLine l).length ≤ l.length := by
  unfold stripHeadingMarkerLine
  simp only []
  split
  · calc ((l.drop (l.takeWhile (fun c => c = '#')).length).dropWhile isJsSpace).length
        ≤ (l.drop (l.takeWhile (fun c => c = '#')).length).length := length_dropWhile_le _ _
      _ ≤ l.length := by
          rw [List.length_drop]
          omega
  · exact Nat.le_refl _

theorem sumLens_map_le (f : List Char → List Char)
    (hf : ∀ l, (f l).length ≤ l.length) (ls : List (List Char)) :
    sumLens (ls.map f) ≤ sumLens ls := by
  induction ls with
  | nil => simp [sumLens]
  | cons l rest ih =>
    simp only [List.map_cons, sumLens]
    have := hf l
    omega

theorem stripHeadingMarkers_length_le (s : List Char) :
    (stripHeadingMarkers s).length ≤ s.length := by
  unfold stripHeadingMarkers
  have hne : (splitLines s).map stripHeadingMarkerLine ≠ [] := by
    intro h
    exact splitLines_ne_nil s (List.map_eq_nil_iff.mp h)
  have h1 := joinLines_length ((splitLines s).map stripHeadingMarkerLine) hne
  have h2 := sumLens_map_le stripHeadingMarkerLine stripHeadingMarkerLine_length_le (splitLines s)
  have h3 := sumLens_splitLines s
  omega

theorem replaceEnd_length_le (suf rep l : List Char) (h : rep.length ≤ suf.length) :
    (replaceEnd suf rep l).length ≤ l.length := by
  unfold replaceEnd
  split
  · rename_i hsuf
    have hle : suf.length ≤ l.length :=
      (List.isSuffixOf_iff_suffix.mp hsuf).length_le
    rw [List.length_append, List.length_take]
    omega
  · exact Nat.le_refl _

theorem stripGuarded_length_le (bad : Char → Bool) (suf l : List Char) :
    (stripGuarded bad suf l).length ≤ l.length := by
  unfold stripGuarded
  split
  · split
    · split
      · exact Nat.le_refl _
      · rw [List.length_take]
        omega
    · exact Nat.le_refl _
  · exact Nat.le_refl _

theorem englishStemmer_length_le (w : List Char) :
    (englishStemmer w).length ≤ w.length := by
  unfold englishStemmer
  split
  · exact Nat.le_refl _
  · refine le_trans (stripGuarded_length_le _ _ _) ?_
    refine le_trans (replaceEnd_length_le _ _ _ (by decide)) ?_
    refine le_trans (replaceEnd_length_le _ _ _ (by decide)) ?_
    refine le_trans (replaceEnd_length_le _ _ _ (by decide)) ?_
    refine le_trans (replaceEnd_length_le _ _ _ (by decide)) ?_
    refine le_trans (stripGuarded_length_le _ _ _) ?_
    refine le_trans (stripGuarded_length_le _ _ _) ?_
    refine le_trans (replaceEnd_length_le _ _ _ (by decide)) ?_
    refine le_trans (replaceEnd_length_le _ _ _ (by decide)) ?_
    exact replaceEnd_length_le _ _ _ (by decide)

theorem findBestTerm_none (lower : List Char) (terms : List (List Char))
    (h : ∀ t ∈ terms, indexOfSub t lower = none) :
    findBestTerm lower terms = none := by
  unfold findBestTerm
  induction terms with
  | nil => rfl
  | cons t rest ih =>
    rw [List.foldl_cons]
    have hstep : bestTermStep lower none t = none := by
      unfold bestTermStep
      rw [h t (List.mem_cons_self _ _)]
    rw [hstep]
    exact ih (fun x hx => h x (List.mem_cons_of_mem _ hx))

theorem bestTermStep_cases (lower : List Char) (acc : Option (Nat × List Char))
    (term : List Char) :
    bestTermStep lower acc term = acc ∨
    ∃ i, bestTermStep lower acc term = some (i, term) := by
  unfold bestTermStep
  cases indexOfSub term lower with
  | none => exact Or.inl rfl
  | some i =>
    cases acc with
    | none => exact Or.inr ⟨i, rfl⟩
    | some p =>
      obtain ⟨bi, bt⟩ := p
      simp only []
      by_cases hlt : i < bi
      · rw [if_pos hlt]
        exact Or.inr ⟨i, rfl⟩
      · rw [if_neg hlt]
        exact Or.inl rfl

theorem foldl_bestTerm_mem (lower : List Char) (terms : List (List Char)) :
    ∀ (acc : Option (Nat × List Char)) (p : Nat × List Char),
      terms.foldl (bestTermStep lower) acc = some p → acc = some p ∨ p.2 ∈ terms := by
  induction terms with
  | nil =>
    intro acc p h
    exact Or.inl h
  | cons t rest ih =>
    intro acc p h
    rw [List.foldl_cons] at h
    rcases ih (bestTermStep lower acc t) p h with heq | hmem
    · rcases bestTermStep_cases lower acc t with hacc | ⟨i, hit⟩
      · rw [hacc] at heq
        exact Or.inl heq
      · rw [hit] at heq
        rw [Option.some.injEq] at heq
        right
        rw [← heq]
        exact List.mem_cons_self _ _
    · exact Or.inr (List.mem_cons_of_mem _ hmem)

theorem findBestTerm_mem (lower : List Char) (terms : List (List Char))
    (p : Nat × List Char) (h : findBestTerm lower terms = some p) : p.2 ∈ terms := by
  rcases foldl_bestTerm_mem lower terms none p h with heq | hmem
  · cases heq
  · exact hmem

theorem le_foldr_max (l : List Nat) (x : Nat) (h : x ∈ l) : x ≤ l.foldr max 0 := by
  induction l with
  | nil => cases h
  | cons a rest ih =>
    rcases List.mem_cons.mp h with rfl | h2
    · exact Nat.le_max_left _ _
    · exact le_trans (ih h2) (Nat.le_max_right _ _)

theorem snippet_cleanup_length_le (w : List Char) :
    (jsTrim (collapseRuns isJsSpace ' '
      (stripInlineCode (replaceScan fenceMatch
        (replaceScan imageMatch (replaceScan linkMatch
          (stripHeadingMarkers w))))))).length ≤ w.length := by
  refine le_trans (jsTrim_length_le _) ?_
  refine le_trans (collapseRuns_length_le _ _ _) ?_
  refine le_trans (replaceScan_length_le _ (surroundMatch_shrink backtick 1) _) ?_
  refine le_trans (replaceScan_length_le _ fenceMatch_shrink _) ?_
  refine le_trans (replaceScan_length_le _ imageMatch_shrink _) ?_
  refine le_trans (replaceScan_length_le _ linkMatch_shrink _) ?_
  exact stripHeadingMarkers_length_le _

set_option maxHeartbeats 8000000 in
set_option maxRecDepth 4000 in
/-- C4 counterexample: on a 300-character body and a 100-character
query term occurring at offset 0, the snippet window spans 250
characters, so the text excluding the ellipsis affixes exceeds 200
characters. -/
theorem c4_counterexample_long_term :
    generateSnippet (List.replicate 300 'a') (List.replicate 100 'a') =
      List.replicate 250 'a' ++ "...".toList ∧
    ¬(List.replicate 250 'a').length ≤ 200 := by
  constructor
  · decide
  · decide

/-- C4 (amended): when no raw or stemmed query term occurs in the body
(case-insensitively), the snippet is the first 200 characters of the
body followed by a trailing ellipsis when the body is longer; and in
general the snippet splits into an optional leading ellipsis, a core,
and an optional trailing ellipsis, where the core never exceeds 200
characters plus the length of the longest query term (the window is 50
characters before the match plus the matched term plus 150 after). -/
theorem c4_snippet_bounds (markdown query : List Char) :
    ((∀ t ∈ wsTokens (query.map Char.toLower) ++
        (wsTokens (query.map Char.toLower)).map englishStemmer,
        indexOfSub t (markdown.map Char.toLower) = none) →
      generateSnippet markdown query =
        markdown.take 200 ++ (if 200 < markdown.length then "...".toList else [])) ∧
    ∃ pre core post,
      generateSnippet markdown query = pre ++ core ++ post ∧
      (pre = [] ∨ pre = "...".toList) ∧ (post = [] ∨ post = "...".toList) ∧
      core.length ≤ 200 + maxTermLen query := by
  constructor
  · intro hnone
    unfold generateSnippet
    simp only []
    by_cases hq : (wsTokens (query.map Char.toLower)).length = 0
    · rw [if_pos hq]
    · rw [if_neg hq]
      have hb : findBestTerm (markdown.map Char.toLower)
          (wsTokens (query.map Char.toLower) ++
            (wsTokens (query.map Char.toLower)).map englishStemmer) = none :=
        findBestTerm_none _ _ hnone
      rw [hb]
  · unfold generateSnippet
    simp only []
    by_cases hq : (wsTokens (query.map Char.toLower)).length = 0
    · rw [if_pos hq]
      refine ⟨[], markdown.take 200, _, by rw [List.nil_append], Or.inl rfl, ?_, ?_⟩
      · by_cases hl : 200 < markdown.length
        · rw [if_pos hl]
          exact Or.inr rfl
        · rw [if_neg hl]
          exact Or.inl rfl
      · have := List.length_take_le 200 markdown
        omega
    · rw [if_neg hq]
      cases hb : findBestTerm (markdown.map Char.toLower)
          (wsTokens (query.map Char.toLower) ++
            (wsTokens (query.map Char.toLower)).map englishStemmer) with
      | none =>
        refine ⟨[], markdown.take 200, _, by rw [List.nil_append], Or.inl rfl, ?_, ?_⟩
        · by_cases hl : 200 < markdown.length
          · rw [if_pos hl]
            exact Or.inr rfl
          · rw [if_neg hl]
            exact Or.inl rfl
        · have := List.length_take_le 200 markdown
          omega
      | some p =>
        obtain ⟨bestIndex, bestTerm⟩ := p
        simp only []
        refine ⟨_, _, _, rfl, ?_, ?_, ?_⟩
        · by_cases hs : 0 < bestIndex - 50
          · rw [if_pos hs]
            exact Or.inr rfl
          · rw [if_neg hs]
            exact Or.inl rfl
        · by_cases he : min markdown.length (bestIndex + bestTerm.length + 150) <
              markdown.length
          · rw [if_pos he]
            exact Or.inr rfl
          · rw [if_neg he]
            exact Or.inl rfl
        · have h1 := snippet_cleanup_length_le
            ((markdown.drop (bestIndex - 50)).take
              (min markdown.length (bestIndex + bestTerm.length + 150) - (bestIndex - 50)))
          have h2 := List.length_take_le
            (min markdown.length (bestIndex + bestTerm.length + 150) - (bestIndex - 50))
            (markdown.drop (bestIndex - 50))
          have h3 : bestTerm.length ≤ maxTermLen query := by
            have hmem := findBestTerm_mem _ _ _ hb
            unfold maxTermLen
            rcases List.mem_append.mp hmem with hin | hin
            · exact le_foldr_max _ _ (List.mem_map_of_mem List.length hin)
            · obtain ⟨u, hu, rfl⟩ := List.mem_map.mp hin
              exact le_trans (englishStemmer_length_le u)
                (le_foldr_max _ _ (List.mem_map_of_mem List.length hu))
          omega

set_option maxHeartbeats 2000000 in
/-- Witness instantiating the amended C4 on a short body with no
matching term, and extracting the concrete decomposition bound. -/
theorem c4_snippet_bounds_witness :
    generateSnippet ("hello world".toList) ("zzz".toList) =
      ("hello world".toList).take 200 ++
        (if 200 < ("hello world".toList).length then "...".toList else []) ∧
    ∃ pre core post,
      generateSnippet ("hello world".toList) ("zzz".toList) = pre ++ core ++ post ∧
      (pre = [] ∨ pre = "...".toList) ∧ (post = [] ∨ post = "...".toList) ∧
      core.length ≤ 200 + maxTermLen ("zzz".toList) :=
  ⟨(c4_snippet_bounds ("hello world".toList) ("zzz".toList)).1 (by decide),
   (c4_snippet_bounds ("hello world".toList) ("zzz".toList)).2⟩

set_option maxHeartbeats 2000000 in
/-- C9 counterexample: a converted markdown with whitespace-only lines
defeats the blank-line guarantee, because the newline-run collapse runs
before the per-line trailing-whitespace strip; the output contains
three consecutive blank lines. -/
theorem c9_counterexample_wsonly_lines :
    htmlToMarkdown (fun _ => "a\n \n \n \nb".toList) ("<p>x</p>".toList) =
      "a\n\n\n\nb\n".toList ∧
    ([[], [], []] : List (List Char)) <:+: splitLines ("a\n\n\n\nb\n".toList) := by
  refine ⟨by decide, ⟨[['a']], [['b'], []], by decide⟩⟩

theorem replaceScanFuel_congr (f : List Char → Option (List Char × Nat)) :
    ∀ (n m : Nat) (s : List Char), s.length ≤ n → s.length ≤ m →
      replaceScanFuel f n s = replaceScanFuel f m s := by
  intro n
  induction n with
  | zero =>
    intro m s hn hm
    have : s = [] := List.length_eq_zero.mp (Nat.le_zero.mp hn)
    subst this
    cases m <;> rfl
  | succ n ih =>
    intro m s hn hm
    cases s with
    | nil => cases m <;> rfl
    | cons c rest =>
      cases m with
      | zero => simp at hm
      | succ m2 =>
        rw [replaceScanFuel, replaceScanFuel]
        simp only [List.length_cons] at hn hm
        cases hf : f (c :: rest) with
        | none =>
          simp only []
          rw [ih m2 rest (by omega) (by omega)]
        | some p =>
          obtain ⟨rep, k⟩ := p
          simp only []
          have hd : (rest.drop k).length = rest.length - k := List.length_drop _ _
          rw [ih m2 (rest.drop k) (by omega) (by omega)]

theorem replaceScan_cons (f : List Char → Option (List Char × Nat)) (c : Char)
    (rest : List Char) :
    replaceScan f (c :: rest) =
      match f (c :: rest) with
      | some (rep, k) => rep ++ replaceScan f (rest.drop k)
      | none => c :: replaceScan f rest := by
  unfold replaceScan
  rw [List.length_cons, replaceScanFuel]
  cases hf : f (c :: rest) with
  | none => simp only []
  | some p =>
    obtain ⟨rep, k⟩ := p
    simp only []
    have hd : (rest.drop k).length = rest.length - k := List.length_drop _ _
    rw [replaceScanFuel_congr f rest.length (rest.drop k).length (rest.drop k)
      (by omega) (Nat.le_refl _)]

theorem joinLines_cons_cons (l l2 : List Char) (ls : List (List Char)) :
    joinLines (l :: l2 :: ls) = l ++ '\n' :: joinLines (l2 :: ls) := rfl

theorem splitLines_cons_newline (rest : List Char) :
    splitLines ('\n' :: rest) = [] :: splitLines rest := by
  rw [splitLines]
  simp

theorem splitLines_cons_other (c : Char) (rest : List Char) (hc : c ≠ '\n')
    (l : List Char) (ls : List (List Char)) (h : splitLines rest = l :: ls) :
    splitLines (c :: rest) = (c :: l) :: ls := by
  rw [splitLines, if_neg hc, h]

theorem splitLines_append_newline (a : List Char) :
    splitLines (a ++ ['\n']) = splitLines a ++ [[]] := by
  induction a with
  | nil => rfl
  | cons c a2 ih =>
    by_cases hc : c = '\n'
    · subst hc
      rw [List.cons_append, splitLines_cons_newline, splitLines_cons_newline, ih]
      rfl
    · cases h : splitLines a2 with
      | nil => exact absurd h (splitLines_ne_nil a2)
      | cons l0 ls0 =>
        rw [h, List.cons_append] at ih
        rw [List.cons_append, splitLines_cons_other c (a2 ++ ['\n']) hc l0 (ls0 ++ [[]]) ih,
          splitLines_cons_other c a2 hc l0 ls0 h]
        rfl

theorem splitLines_no_newline (s : List Char) :
    ∀ l ∈ splitLines s, '\n' ∉ l := by
  induction s with
  | nil =>
    intro l hl
    simp [splitLines] at hl
    simp [hl]
  | cons c rest ih =>
    intro l hl
    by_cases hc : c = '\n'
    · subst hc
      rw [splitLines_cons_newline] at hl
      rcases List.mem_cons.mp hl with rfl | h2
      · simp
      · exact ih l h2
    · cases h : splitLines rest with
      | nil => exact absurd h (splitLines_ne_nil rest)
      | cons l0 ls0 =>
        rw [splitLines_cons_other c rest hc l0 ls0 h] at hl
        rcases List.mem_cons.mp hl with rfl | h2
        · intro hmem
          rcases List.mem_cons.mp hmem with heq | h3
          · exact hc heq.symm
          · exact ih l0 (h ▸ List.mem_cons_self _ _) h3
        · exact ih l (h ▸ List.mem_cons_of_mem _ h2)

theorem joinLines_splitLines (s : List Char) :
    joinLines (splitLines s) = s := by
  induction s with
  | nil => rfl
  | cons c rest ih =>
    by_cases hc : c = '\n'
    · subst hc
      rw [splitLines_cons_newline]
      cases h : splitLines rest with
      | nil => exact absurd h (splitLines_ne_nil rest)
      | cons l0 ls0 =>
        rw [h] at ih
        rw [joinLines_cons_cons, ih]
        rfl
    · cases h : splitLines rest with
      | nil => exact absurd h (splitLines_ne_nil rest)
      | cons l0 ls0 =>
        rw [h] at ih
        rw [splitLines_cons_other c rest hc l0 ls0 h]
        cases ls0 with
        | nil =>
          show c :: l0 = c :: rest
          rw [show joinLines [l0] = l0 from rfl] at ih
          rw [ih]
        | cons l1 ls1 =>
          rw [joinLines_cons_cons]
          rw [joinLines_cons_cons] at ih
          show c :: (l0 ++ '\n' :: joinLines (l1 :: ls1)) = c :: rest
          rw [ih]

theorem splitLines_single (l : List Char) (h : '\n' ∉ l) : splitLines l = [l] := by
  induction l with
  | nil => rfl
  | cons c rest ih =>
    have hc : c ≠ '\n' := fun he => h (he ▸ List.mem_cons_self _ _)
    have hrest : '\n' ∉ rest := fun hm => h (List.mem_cons_of_mem _ hm)
    rw [splitLines_cons_other c rest hc rest [] (ih hrest)]

theorem splitLines_append_cons_newline (l rest : List Char) (h : '\n' ∉ l) :
    splitLines (l ++ '\n' :: rest) = l :: splitLines rest := by
  induction l with
  | nil =>
    rw [List.nil_append, splitLines_cons_newline]
  | cons c l2 ih =>
    have hc : c ≠ '\n' := fun he => h (he ▸ List.mem_cons_self _ _)
    have hl2 : '\n' ∉ l2 := fun hm => h (List.mem_cons_of_mem _ hm)
    rw [List.cons_append,
      splitLines_cons_other c (l2 ++ '\n' :: rest) hc l2 (splitLines rest) (ih hl2)]

theorem splitLines_joinLines (ls : List (List Char)) (hne : ls ≠ [])
    (hnl : ∀ l ∈ ls, '\n' ∉ l) :
    splitLines (joinLines ls) = ls := by
  induction ls with
  | nil => exact absurd rfl hne
  | cons l rest ih =>
    cases rest with
    | nil =>
      show splitLines l = [l]
      exact splitLines_single l (hnl l (List.mem_cons_self _ _))
    | cons l2 ls2 =>
      rw [joinLines_cons_cons,
        splitLines_append_cons_newline l (joinLines (l2 :: ls2))
          (hnl l (List.mem_cons_self _ _)),
        ih (by simp) (fun x hx => hnl x (List.mem_cons_of_mem _ hx))]

theorem joinLines_append (a b : List (List Char)) (ha : a ≠ []) (hb : b ≠ []) :
    joinLines (a ++ b) = joinLines a ++ '\n' :: joinLines b := by
  induction a with
  | nil => exact absurd rfl ha
  | cons l a2 ih =>
    cases a2 with
    | nil =>
      cases b with
      | nil => exact absurd rfl hb
      | cons b0 bs =>
        rw [List.cons_append, List.nil_append, joinLines_cons_cons]
        rfl
    | cons l2 as2 =>
      have h2 := ih (by simp)
      rw [List.cons_append] at h2
      calc joinLines ((l :: l2 :: as2) ++ b)
          = joinLines (l :: l2 :: (as2 ++ b)) := by
            rw [List.cons_append, List.cons_append]
        _ = l ++ '\n' :: joinLines (l2 :: (as2 ++ b)) := joinLines_cons_cons _ _ _
        _ = l ++ '\n' :: (joinLines (l2 :: as2) ++ '\n' :: joinLines b) := by rw [h2]
        _ = (l ++ '\n' :: joinLines (l2 :: as2)) ++ '\n' :: joinLines b := by
            rw [List.append_assoc, List.cons_append]
        _ = joinLines (l :: l2 :: as2) ++ '\n' :: joinLines b := by
            rw [joinLines_cons_cons]

theorem head_dropWhile_false (p : Char → Bool) (l : List Char) (c : Char)
    (h : (l.dropWhile p).head? = some c) : p c = false := by
  have hw := List.head?_dropWhile_not p l
  rw [h] at hw
  exact hw

theorem jsTrim_getLast_not_space (l : List Char) (c : Char)
    (h : (jsTrim l).getLast? = some c) : isJsSpace c = false := by
  unfold jsTrim at h
  rw [List.getLast?_reverse] at h
  exact head_dropWhile_false _ _ _ h

theorem jsTrimEnd_getLast_not_space (l : List Char) (c : Char)
    (h : (jsTrimEnd l).getLast? = some c) : isJsSpace c = false := by
  unfold jsTrimEnd at h
  rw [List.getLast?_reverse] at h
  exact head_dropWhile_false _ _ _ h

theorem hasTrailWs_jsTrimEnd (l : List Char) : hasTrailWs (jsTrimEnd l) = false := by
  unfold hasTrailWs
  cases h : (jsTrimEnd l).getLast? with
  | none => rfl
  | some c => exact jsTrimEnd_getLast_not_space l c h

theorem jsTrimEnd_eq_self (l : List Char) (h : hasTrailWs l = false) :
    jsTrimEnd l = l := by
  unfold jsTrimEnd
  cases hl : l.reverse with
  | nil =>
    have h0 : l = [] := by simpa using congrArg List.reverse hl
    subst h0
    rfl
  | cons c rest =>
    have hlast : l.getLast? = some c := by
      rw [← List.head?_reverse, hl]
      rfl
    have hws : isJsSpace c = false := by
      unfold hasTrailWs at h
      rw [hlast] at h
      simpa using h
    rw [List.dropWhile_cons, hws]
    simp only [Bool.false_eq_true, if_false]
    exact (show l = (c :: rest).reverse by simpa using congrArg List.reverse hl).symm

theorem badWsNl_cons (c : Char) (rest : List Char) :
    badWsNl (c :: rest) =
      ((isJsSpace c && !(decide (c = '\n')) &&
        (decide (rest.head? = some '\n') || decide (rest = []))) || badWsNl rest) := rfl

theorem badWsNl_tail (c : Char) (rest : List Char) (h : badWsNl (c :: rest) = false) :
    badWsNl rest = false := by
  rw [badWsNl_cons, Bool.or_eq_false_iff] at h
  exact h.2

theorem badWsNl_newline_cons (rest : List Char) :
    badWsNl ('\n' :: rest) = badWsNl rest := by
  rw [badWsNl_cons]
  simp

theorem splitLines_head_empty_iff (rest : List Char) (l0 : List Char)
    (ls0 : List (List Char)) (h : splitLines rest = l0 :: ls0) :
    l0 = [] ↔ (rest = [] ∨ rest.head? = some '\n') := by
  cases rest with
  | nil =>
    rw [show splitLines [] = [[]] from rfl] at h
    rw [List.cons.injEq] at h
    simp [← h.1]
  | cons d r =>
    by_cases hd : d = '\n'
    · subst hd
      rw [splitLines_cons_newline, List.cons.injEq] at h
      simp [← h.1]
    · cases h2 : splitLines r with
      | nil => exact absurd h2 (splitLines_ne_nil r)
      | cons x xs =>
        rw [splitLines_cons_other d r hd x xs h2, List.cons.injEq] at h
        constructor
        · intro he
          rw [he] at h
          cases h.1
        · intro hor
          rcases hor with hor | hor
          · cases hor
          · have hde : d = '\n' := by simpa using hor
            exact absurd hde hd

theorem hasTrailWs_cons_cons (c d : Char) (l : List Char) :
    hasTrailWs (c :: d :: l) = hasTrailWs (d :: l) := by
  unfold hasTrailWs
  rw [List.getLast?_cons_cons]

theorem hasTrailWs_single (c : Char) : hasTrailWs [c] = isJsSpace c := by
  unfold hasTrailWs
  rfl

theorem lines_noTrailWs_iff_badWs (s : List Char) :
    (∀ l ∈ splitLines s, hasTrailWs l = false) ↔ badWsNl s = false := by
  induction s with
  | nil =>
    constructor
    · intro _
      rfl
    · intro _ l hl
      rw [show splitLines [] = [[]] from rfl] at hl
      rcases List.mem_cons.mp hl with rfl | h2
      · rfl
      · cases h2
  | cons c rest ih =>
    by_cases hc : c = '\n'
    · subst hc
      rw [splitLines_cons_newline, badWsNl_newline_cons, List.forall_mem_cons]
      constructor
      · intro hp
        exact ih.mp hp.2
      · intro hb
        exact ⟨rfl, ih.mpr hb⟩
    · cases h : splitLines rest with
      | nil => exact absurd h (splitLines_ne_nil rest)
      | cons l0 ls0 =>
        rw [splitLines_cons_other c rest hc l0 ls0 h, List.forall_mem_cons, badWsNl_cons]
        have hiff := splitLines_head_empty_iff rest l0 ls0 h
        rw [h, List.forall_mem_cons] at ih
        constructor
        · intro hp
          obtain ⟨h1, h2⟩ := hp
          have hl0 : hasTrailWs l0 = false := by
            cases l0 with
            | nil => rfl
            | cons d l0b => rw [← hasTrailWs_cons_cons c d l0b]; exact h1
          rw [Bool.or_eq_false_iff]
          refine ⟨?_, ih.mp ⟨hl0, h2⟩⟩
          by_cases hws : isJsSpace c = true
          · by_cases hdis : (rest = [] ∨ rest.head? = some '\n')
            · have hl0nil : l0 = [] := hiff.mpr hdis
              subst hl0nil
              rw [hasTrailWs_single] at h1
              rw [h1] at hws
              cases hws
            · have hd1 : decide (rest.head? = some '\n') = false := by
                simp only [decide_eq_false_iff_not]
                intro hx
                exact hdis (Or.inr hx)
              have hd2 : decide (rest = []) = false := by
                simp only [decide_eq_false_iff_not]
                intro hx
                exact hdis (Or.inl hx)
              rw [hd1, hd2]
              simp
          · rw [Bool.not_eq_true] at hws
            rw [hws]
            simp
        · intro hb
          rw [Bool.or_eq_false_iff] at hb
          obtain ⟨hcond, hrest⟩ := hb
          obtain ⟨hl0, hls0⟩ := ih.mpr hrest
          refine ⟨?_, hls0⟩
          cases hl : l0 with
          | cons d l0b =>
            rw [hasTrailWs_cons_cons]
            rw [hl] at hl0
            exact hl0
          | nil =>
            rw [hasTrailWs_single]
            have hdis : rest = [] ∨ rest.head? = some '\n' := hiff.mp hl
            have hdc : decide (c = '\n') = false := by
              simp only [decide_eq_false_iff_not]
              exact hc
            rw [hdc] at hcond
            have hor : (decide (rest.head? = some '\n') || decide (rest = [])) = true := by
              rcases hdis with hd | hd
              · simp [hd]
              · simp [hd]
            rw [hor] at hcond
            simpa using hcond

theorem badWsNl_append_newline (t : List Char) (h : badWsNl t = false) :
    badWsNl (t ++ ['\n']) = false := by
  induction t with
  | nil =>
    rw [List.nil_append, badWsNl_newline_cons]
    rfl
  | cons c r ih =>
    rw [List.cons_append, badWsNl_cons, Bool.or_eq_false_iff]
    rw [badWsNl_cons, Bool.or_eq_false_iff] at h
    obtain ⟨hcond, hrest⟩ := h
    refine ⟨?_, ih hrest⟩
    cases r with
    | nil =>
      rw [List.nil_append]
      have : (decide (([] : List Char).head? = some '\n') || decide (([] : List Char) = [])) = true := by
        simp
      rw [this] at hcond
      have : (decide ((['\n']).head? = some '\n') || decide ((['\n'] : List Char) = [])) = true := by
        simp
      rw [this]
      simpa using hcond
    | cons d r2 =>
      rw [List.cons_append]
      exact hcond

theorem badWsNl_dropWhile (s : List Char) (h : badWsNl s = false) :
    badWsNl (s.dropWhile isJsSpace) = false := by
  induction s with
  | nil => exact h
  | cons c rest ih =>
    rw [List.dropWhile_cons]
    split
    · exact ih (badWsNl_tail c rest h)
    · exact h

theorem badWsNl_prefix (l2 : List Char) :
    ∀ (l1 : List Char), badWsNl (l1 ++ l2) = false →
      (∀ c, l1.getLast? = some c → isJsSpace c = false) →
      badWsNl l1 = false := by
  intro l1
  induction l1 with
  | nil =>
    intro _ _
    rfl
  | cons c r ih =>
    intro h hlast
    rw [List.cons_append, badWsNl_cons, Bool.or_eq_false_iff] at h
    obtain ⟨hcond, hrest⟩ := h
    rw [badWsNl_cons, Bool.or_eq_false_iff]
    cases hr : r with
    | nil =>
      subst hr
      have hl : isJsSpace c = false := hlast c rfl
      refine ⟨by simp [hl], rfl⟩
    | cons d r2 =>
      subst hr
      refine ⟨?_, ?_⟩
      · by_cases hd2 : decide ((d :: r2).head? = some '\n') = true
        · have hd3 : decide ((d :: r2 ++ l2).head? = some '\n') = true := by
            simp only [decide_eq_true_eq] at hd2 ⊢
            simpa using hd2
          rw [hd3] at hcond
          rw [hd2]
          simpa using hcond
        · rw [Bool.not_eq_true] at hd2
          rw [hd2]
          have hd4 : decide ((d :: r2) = ([] : List Char)) = false := by simp
          rw [hd4]
          simp
      · refine ih hrest ?_
        intro x hx
        refine hlast x ?_
        rw [List.getLast?_cons_cons]
        exact hx

theorem badWsNl_jsTrim (l : List Char) (h : badWsNl l = false) :
    badWsNl (jsTrim l) = false := by
  unfold jsTrim
  have h1 : badWsNl (l.dropWhile isJsSpace) = false := badWsNl_dropWhile l h
  have hpre : ((l.dropWhile isJsSpace).reverse.dropWhile isJsSpace).reverse <+:
      l.dropWhile isJsSpace := by
    have h0 : (l.dropWhile isJsSpace).reverse.dropWhile isJsSpace <:+
        (l.dropWhile isJsSpace).reverse := List.dropWhile_suffix _
    have h2 := List.reverse_prefix.mpr h0
    rwa [List.reverse_reverse] at h2
  obtain ⟨suf, hsuf⟩ := hpre
  refine badWsNl_prefix suf _ (by rw [hsuf]; exact h1) ?_
  intro c hc
  rw [List.getLast?_reverse] at hc
  exact head_dropWhile_false _ _ _ hc


theorem drop_takeWhile_length (p : Char → Bool) (l : List Char) :
    l.drop ((l.takeWhile p).length) = l.dropWhile p := by
  induction l with
  | nil => rfl
  | cons c cs ih =>
    by_cases h : p c
    · simp only [List.takeWhile_cons, List.dropWhile_cons, h, if_pos, List.length_cons,
        List.drop_succ_cons]
      exact ih
    · simp only [List.takeWhile_cons, List.dropWhile_cons, h, if_neg, List.length_nil,
        List.drop_zero, Bool.false_eq_true, if_false]

theorem badWsNl_dropWhile_pred (p : Char → Bool) :
    ∀ (l : List Char), badWsNl l = false → badWsNl (l.dropWhile p) = false := by
  intro l
  induction l with
  | nil => exact fun h => h
  | cons c rest ih =>
    intro h
    rw [List.dropWhile_cons]
    split
    · exact ih (badWsNl_tail _ _ h)
    · exact h

theorem newlineRunMatch_none (c : Char) (rest : List Char)
    (h : ∀ r, c :: rest ≠ '\n' :: '\n' :: '\n' :: r) :
    newlineRunMatch (c :: rest) = none := by
  rw [newlineRunMatch.eq_def]
  split
  · rename_i r heq
    exact absurd heq (h r)
  · rfl

theorem collapse_cons_nomatch (c : Char) (rest : List Char)
    (h : ∀ r, c :: rest ≠ '\n' :: '\n' :: '\n' :: r) :
    collapseNewlineRuns (c :: rest) = c :: collapseNewlineRuns rest := by
  unfold collapseNewlineRuns
  rw [replaceScan_cons, newlineRunMatch_none c rest h]

theorem collapse_three (r : List Char) :
    collapseNewlineRuns ('\n' :: '\n' :: '\n' :: r) =
      '\n' :: '\n' :: collapseNewlineRuns (r.dropWhile (fun c => c = '\n')) := by
  unfold collapseNewlineRuns
  rw [replaceScan_cons]
  have hm : newlineRunMatch ('\n' :: '\n' :: '\n' :: r) =
      some (['\n', '\n'], (r.takeWhile (fun c => c = '\n')).length + 2) := rfl
  rw [hm]
  simp only []
  have hd : ('\n' :: '\n' :: r).drop ((r.takeWhile (fun c => c = '\n')).length + 2) =
      r.drop ((r.takeWhile (fun c => c = '\n')).length) := by
    rw [List.drop_succ_cons, List.drop_succ_cons]
  rw [hd, drop_takeWhile_length]
  rfl

theorem collapse_cons_head (c : Char) (rest : List Char) :
    ∃ X, collapseNewlineRuns (c :: rest) = c :: X := by
  by_cases h : ∃ r, c :: rest = '\n' :: '\n' :: '\n' :: r
  · obtain ⟨r, hr⟩ := h
    rw [List.cons.injEq] at hr
    obtain ⟨hc, hrest⟩ := hr
    subst hc
    subst hrest
    rw [collapse_three]
    exact ⟨_, rfl⟩
  · rw [collapse_cons_nomatch c rest (fun r hr => h ⟨r, hr⟩)]
    exact ⟨_, rfl⟩

theorem badWsNl_collapse : ∀ (n : Nat) (s : List Char), s.length ≤ n →
    badWsNl s = false → badWsNl (collapseNewlineRuns s) = false := by
  intro n
  induction n with
  | zero =>
    intro s hn _
    have hs : s = [] := List.length_eq_zero.mp (Nat.le_zero.mp hn)
    subst hs
    rfl
  | succ n ih =>
    intro s hn hb
    cases s with
    | nil => rfl
    | cons c rest =>
      by_cases hm : ∃ r, c :: rest = '\n' :: '\n' :: '\n' :: r
      · obtain ⟨r, hr⟩ := hm
        rw [List.cons.injEq] at hr
        obtain ⟨hc, hrest⟩ := hr
        subst hc
        subst hrest
        rw [collapse_three, badWsNl_newline_cons, badWsNl_newline_cons]
        refine ih (r.dropWhile (fun c => c = '\n')) ?_ ?_
        · have h1 := length_dropWhile_le (fun c => decide (c = '\n')) r
          simp only [List.length_cons] at hn
          omega
        · have hbr : badWsNl r = false :=
            badWsNl_tail _ _ (badWsNl_tail _ _ (badWsNl_tail _ _ hb))
          exact badWsNl_dropWhile_pred _ r hbr
      · rw [collapse_cons_nomatch c rest (fun r hr => hm ⟨r, hr⟩)]
        rw [badWsNl_cons, Bool.or_eq_false_iff]
        rw [badWsNl_cons, Bool.or_eq_false_iff] at hb
        obtain ⟨hcond, hrest⟩ := hb
        simp only [List.length_cons] at hn
        refine ⟨?_, ih rest (by omega) hrest⟩
        cases rest with
        | nil =>
          have hco : collapseNewlineRuns ([] : List Char) = [] := rfl
          rw [hco]
          exact hcond
        | cons d r2 =>
          obtain ⟨X, hX⟩ := collapse_cons_head d r2
          rw [hX]
          have h1 : decide ((d :: X).head? = some '\n') =
              decide ((d :: r2).head? = some '\n') := by simp
          have h2 : decide ((d :: X) = ([] : List Char)) = false := by simp
          have h3 : decide ((d :: r2) = ([] : List Char)) = false := by simp
          rw [h3] at hcond
          rw [h1, h2]
          exact hcond

theorem jsTrim_eq (l : List Char) :
    jsTrim l = jsTrimEnd (l.dropWhile isJsSpace) := rfl

theorem jsTrimEnd_prefix_of_self (l : List Char) : jsTrimEnd l <+: l := by
  unfold jsTrimEnd
  have h0 : l.reverse.dropWhile isJsSpace <:+ l.reverse := List.dropWhile_suffix _
  have h2 := List.reverse_prefix.mpr h0
  rwa [List.reverse_reverse] at h2

theorem jsTrim_infix_of_self (l : List Char) : jsTrim l <:+: l := by
  rw [jsTrim_eq]
  exact (jsTrimEnd_prefix_of_self _).isInfix.trans (List.dropWhile_suffix _).isInfix

theorem jsTrim_head_not_space (l : List Char) (c : Char)
    (h : (jsTrim l).head? = some c) : isJsSpace c = false := by
  obtain ⟨s, hs⟩ := jsTrimEnd_prefix_of_self (l.dropWhile isJsSpace)
  rw [jsTrim_eq] at h
  cases hj : jsTrimEnd (l.dropWhile isJsSpace) with
  | nil =>
    rw [hj] at h
    simp at h
  | cons d X =>
    rw [hj] at h hs
    have hdc : d = c := by simpa using h
    subst hdc
    have hh2 : (l.dropWhile isJsSpace).head? = some d := by
      rw [← hs]
      rfl
    exact head_dropWhile_false _ _ _ hh2

theorem hasTrailWs_jsTrim (l : List Char) : hasTrailWs (jsTrim l) = false := by
  rw [jsTrim_eq]
  exact hasTrailWs_jsTrimEnd _

theorem hasThreeNl_cons_ne (c : Char) (w : List Char) (hc : c ≠ '\n') :
    hasThreeNl (c :: w) = hasThreeNl w := by
  match w with
  | [] => rfl
  | [c2] => rfl
  | c2 :: c3 :: X =>
    have he : hasThreeNl (c :: c2 :: c3 :: X) =
        ((c = '\n' && c2 = '\n' && c3 = '\n') || hasThreeNl (c2 :: c3 :: X)) := rfl
    rw [he]
    simp [hc]

theorem hasThreeNl_cons_snd_ne (c d : Char) (X : List Char) (hd : d ≠ '\n') :
    hasThreeNl (c :: d :: X) = hasThreeNl (d :: X) := by
  match X with
  | [] => rfl
  | e :: Y =>
    have he : hasThreeNl (c :: d :: e :: Y) =
        ((c = '\n' && d = '\n' && e = '\n') || hasThreeNl (d :: e :: Y)) := rfl
    rw [he]
    simp [hd]

theorem hasThreeNl_two_cons (c1 c2 : Char) (w : List Char)
    (hw : ∀ d, w.head? = some d → d ≠ '\n') :
    hasThreeNl (c1 :: c2 :: w) = hasThreeNl w := by
  match w with
  | [] => rfl
  | d :: X =>
    have hd : d ≠ '\n' := hw d rfl
    have he : hasThreeNl (c1 :: c2 :: d :: X) =
        ((c1 = '\n' && c2 = '\n' && d = '\n') || hasThreeNl (c2 :: d :: X)) := rfl
    rw [he, hasThreeNl_cons_snd_ne c2 d X hd]
    simp [hd]

theorem hasThreeNl_cons_of (c : Char) (rest : List Char)
    (h : hasThreeNl rest = true) : hasThreeNl (c :: rest) = true := by
  match rest with
  | [] => exact Bool.noConfusion h
  | [c2] => exact Bool.noConfusion h
  | c2 :: c3 :: X =>
    have he : hasThreeNl (c :: c2 :: c3 :: X) =
        ((c = '\n' && c2 = '\n' && c3 = '\n') || hasThreeNl (c2 :: c3 :: X)) := rfl
    rw [he, h, Bool.or_true]

theorem hasThreeNl_append_three (u v : List Char) :
    hasThreeNl (u ++ '\n' :: '\n' :: '\n' :: v) = true := by
  induction u with
  | nil =>
    show hasThreeNl ('\n' :: '\n' :: '\n' :: v) = true
    have he : hasThreeNl ('\n' :: '\n' :: '\n' :: v) =
        ((('\n' : Char) = '\n' && ('\n' : Char) = '\n' && ('\n' : Char) = '\n') ||
          hasThreeNl ('\n' :: '\n' :: v)) := rfl
    rw [he]
    simp
  | cons c u2 ih =>
    rw [List.cons_append]
    exact hasThreeNl_cons_of c _ ih

theorem hasThreeNl_exists (l : List Char) (h : hasThreeNl l = true) :
    ∃ u v, l = u ++ '\n' :: '\n' :: '\n' :: v := by
  induction l with
  | nil => exact Bool.noConfusion h
  | cons c w ih =>
    cases w with
    | nil => exact Bool.noConfusion h
    | cons c2 w2 =>
      cases w2 with
      | nil => exact Bool.noConfusion h
      | cons c3 w3 =>
        have he : hasThreeNl (c :: c2 :: c3 :: w3) =
            ((c = '\n' && c2 = '\n' && c3 = '\n') || hasThreeNl (c2 :: c3 :: w3)) := rfl
        rw [he] at h
        rcases Bool.or_eq_true_iff.mp h with h1 | h2
        · simp only [Bool.and_eq_true, decide_eq_true_eq] at h1
          obtain ⟨⟨hc, hc2⟩, hc3⟩ := h1
          subst hc
          subst hc2
          subst hc3
          exact ⟨[], w3, rfl⟩
        · obtain ⟨u, v, huv⟩ := ih h2
          exact ⟨c :: u, v, by rw [List.cons_append, ← huv]⟩

theorem hasThreeNl_of_infix (a l : List Char) (h : a <:+: l)
    (ha : hasThreeNl a = true) : hasThreeNl l = true := by
  obtain ⟨s, t, hst⟩ := h
  obtain ⟨u, v, huv⟩ := hasThreeNl_exists a ha
  subst hst
  rw [huv]
  rw [show s ++ (u ++ '\n' :: '\n' :: '\n' :: v) ++ t =
      (s ++ u) ++ '\n' :: '\n' :: '\n' :: (v ++ t) from by simp]
  exact hasThreeNl_append_three (s ++ u) (v ++ t)

theorem hasThreeNl_collapse : ∀ (n : Nat) (s : List Char), s.length ≤ n →
    hasThreeNl (collapseNewlineRuns s) = false := by
  intro n
  induction n with
  | zero =>
    intro s hn
    have hs : s = [] := List.length_eq_zero.mp (Nat.le_zero.mp hn)
    subst hs
    rfl
  | succ n ih =>
    intro s hn
    cases s with
    | nil => rfl
    | cons c rest =>
      by_cases hc : c = '\n'
      · subst hc
        cases rest with
        | nil => decide
        | cons d r2 =>
          by_cases hd : d = '\n'
          · subst hd
            cases r2 with
            | nil => decide
            | cons e r3 =>
              by_cases he : e = '\n'
              · subst he
                have hw : ∀ d', (collapseNewlineRuns
                    (r3.dropWhile (fun c => c = '\n'))).head? = some d' → d' ≠ '\n' := by
                  intro d' hd'
                  cases hdw : r3.dropWhile (fun c => c = '\n') with
                  | nil =>
                    rw [hdw] at hd'
                    simp only [show collapseNewlineRuns ([] : List Char) = [] from rfl] at hd'
                    simp at hd'
                  | cons d0 X0 =>
                    rw [hdw] at hd'
                    obtain ⟨X, hX⟩ := collapse_cons_head d0 X0
                    rw [hX] at hd'
                    have h0 : d0 = d' := by simpa using hd'
                    subst h0
                    have hp : decide (d0 = '\n') = false := by
                      refine head_dropWhile_false (fun c => decide (c = '\n')) r3 d0 ?_
                      rw [hdw]
                      rfl
                    simpa using hp
                rw [collapse_three, hasThreeNl_two_cons '\n' '\n' _ hw]
                refine ih _ ?_
                have h1 := length_dropWhile_le (fun c => decide (c = '\n')) r3
                simp only [List.length_cons] at hn
                omega
              · have hnm1 : ∀ r, ('\n' :: '\n' :: e :: r3 : List Char) ≠
                    '\n' :: '\n' :: '\n' :: r := by
                  intro r hr
                  injection hr with h1 hr2
                  injection hr2 with h2 hr3
                  injection hr3 with h3 hr4
                  exact he h3
                rw [collapse_cons_nomatch _ _ hnm1]
                have hnm2 : ∀ r, ('\n' :: e :: r3 : List Char) ≠
                    '\n' :: '\n' :: '\n' :: r := by
                  intro r hr
                  injection hr with h1 hr2
                  injection hr2 with h2 hr3
                  exact he h2
                rw [collapse_cons_nomatch _ _ hnm2]
                have hnm3 : ∀ r, (e :: r3 : List Char) ≠ '\n' :: '\n' :: '\n' :: r := by
                  intro r hr
                  injection hr with h1 hr2
                  exact he h1
                rw [collapse_cons_nomatch _ _ hnm3]
                have hw : ∀ d', (e :: collapseNewlineRuns r3).head? = some d' → d' ≠ '\n' := by
                  intro d' hd'
                  have h0 : e = d' := by simpa using hd'
                  subst h0
                  exact he
                rw [hasThreeNl_two_cons '\n' '\n' _ hw, hasThreeNl_cons_ne e _ he]
                refine ih r3 ?_
                simp only [List.length_cons] at hn
                omega
          · have hnm1 : ∀ r, ('\n' :: d :: r2 : List Char) ≠ '\n' :: '\n' :: '\n' :: r := by
              intro r hr
              injection hr with h1 hr2
              injection hr2 with h2 hr3
              exact hd h2
            rw [collapse_cons_nomatch _ _ hnm1]
            have hnm2 : ∀ r, (d :: r2 : List Char) ≠ '\n' :: '\n' :: '\n' :: r := by
              intro r hr
              injection hr with h1 hr2
              exact hd h1
            rw [collapse_cons_nomatch _ _ hnm2]
            rw [hasThreeNl_cons_snd_ne '\n' d _ hd, hasThreeNl_cons_ne d _ hd]
            refine ih r2 ?_
            simp only [List.length_cons] at hn
            omega
      · have hnm : ∀ r, (c :: rest : List Char) ≠ '\n' :: '\n' :: '\n' :: r := by
          intro r hr
          injection hr with h1 hr2
          exact hc h1
        rw [collapse_cons_nomatch _ _ hnm, hasThreeNl_cons_ne c _ hc]
        refine ih rest ?_
        simp only [List.length_cons] at hn
        omega

theorem no_two_empty (t : List Char)
    (h3 : hasThreeNl t = false)
    (hh : ∀ c, t.head? = some c → c ≠ '\n')
    (hl : ∀ c, t.getLast? = some c → c ≠ '\n') :
    ¬ (([[], []] : List (List Char)) <:+: splitLines t) := by
  intro hinf
  obtain ⟨A, B, hAB⟩ := hinf
  have ht : t = joinLines (A ++ [[], []] ++ B) := by
    rw [hAB, joinLines_splitLines]
  cases A with
  | nil =>
    rw [List.nil_append] at ht
    have hhd : t.head? = some '\n' := by
      rw [ht]
      rfl
    exact hh '\n' hhd rfl
  | cons a A' =>
    cases B with
    | nil =>
      rw [List.append_nil] at ht
      have hone : joinLines [([] : List Char), []] = ['\n'] := rfl
      have hj : joinLines ((a :: A') ++ [[], []]) =
          joinLines (a :: A') ++ '\n' :: joinLines [[], []] :=
        joinLines_append (a :: A') [[], []] (by simp) (by simp)
      rw [hj, hone] at ht
      have hlast : t.getLast? = some '\n' := by
        rw [ht, List.getLast?_append]
        rfl
      exact hl '\n' hlast rfl
    | cons b B' =>
      have hre : (a :: A') ++ [[], []] ++ (b :: B') =
          (a :: A') ++ (([] : List Char) :: ([] : List Char) :: b :: B') := by simp
      rw [hre] at ht
      have hj : joinLines ((a :: A') ++ ([] : List Char) :: ([] : List Char) :: b :: B') =
          joinLines (a :: A') ++ '\n' :: joinLines (([] : List Char) :: ([] : List Char) :: b :: B') :=
        joinLines_append _ _ (by simp) (by simp)
      have hj2 : joinLines (([] : List Char) :: ([] : List Char) :: b :: B') =
          '\n' :: '\n' :: joinLines (b :: B') := by
        rw [joinLines_cons_cons, joinLines_cons_cons]
        rfl
      rw [hj, hj2] at ht
      have h3' : hasThreeNl t = true := by
        rw [ht]
        exact hasThreeNl_append_three _ _
      rw [h3'] at h3
      exact Bool.noConfusion h3

theorem three_in_concat (L : List (List Char))
    (h : ([[], [], []] : List (List Char)) <:+: L ++ [[]]) :
    ([[], []] : List (List Char)) <:+: L := by
  obtain ⟨A, B, hAB⟩ := h
  rcases List.eq_nil_or_concat B with rfl | ⟨B', x, rfl⟩
  · rw [List.append_nil] at hAB
    rw [show A ++ ([[], [], []] : List (List Char)) = (A ++ [[], []]) ++ [[]] from by simp]
      at hAB
    have h2 := List.append_inj' hAB rfl
    refine ⟨A, [], ?_⟩
    rw [List.append_nil]
    exact h2.1
  · rw [List.concat_eq_append] at hAB
    rw [show A ++ ([[], [], []] : List (List Char)) ++ (B' ++ [x]) =
        (A ++ [[], [], []] ++ B') ++ [x] from by simp] at hAB
    have h2 := List.append_inj' hAB rfl
    refine ⟨A, ([] : List Char) :: B', ?_⟩
    rw [← h2.1]
    simp

theorem map_jsTrimEnd_id (ls : List (List Char)) (h : ∀ a ∈ ls, hasTrailWs a = false) :
    ls.map jsTrimEnd = ls := by
  induction ls with
  | nil => rfl
  | cons x xs ih =>
    rw [List.map_cons, jsTrimEnd_eq_self x (h x (List.mem_cons_self _ _)),
      ih (fun a ha => h a (List.mem_cons_of_mem _ ha))]

theorem cleanMarkdown_props (md : List Char) :
    ∃ t, cleanMarkdown md = t ++ ['\n'] ∧ hasTrailWs t = false ∧
      (∀ l ∈ splitLines (cleanMarkdown md), hasTrailWs l = false) ∧
      ((∀ l ∈ splitLines md, hasTrailWs l = false) →
        ¬ (([[], [], []] : List (List Char)) <:+: splitLines (cleanMarkdown md))) := by
  have hsj : splitLines (joinLines ((splitLines (collapseNewlineRuns md)).map jsTrimEnd)) =
      (splitLines (collapseNewlineRuns md)).map jsTrimEnd := by
    refine splitLines_joinLines _ ?_ ?_
    · intro hme
      rw [List.map_eq_nil_iff] at hme
      exact splitLines_ne_nil _ hme
    · intro l hl
      rw [List.mem_map] at hl
      obtain ⟨l0, hl0, rfl⟩ := hl
      intro hmem
      exact splitLines_no_newline _ l0 hl0 ((jsTrimEnd_prefix_of_self l0).sublist.subset hmem)
  have hyb : badWsNl (joinLines ((splitLines (collapseNewlineRuns md)).map jsTrimEnd)) =
      false := by
    refine (lines_noTrailWs_iff_badWs _).mp ?_
    rw [hsj]
    intro l hl
    rw [List.mem_map] at hl
    obtain ⟨l0, hmem0, hl0⟩ := hl
    rw [← hl0]
    exact hasTrailWs_jsTrimEnd l0
  have htb : badWsNl (jsTrim (joinLines
      ((splitLines (collapseNewlineRuns md)).map jsTrimEnd))) = false :=
    badWsNl_jsTrim _ hyb
  have hob : badWsNl (jsTrim (joinLines
      ((splitLines (collapseNewlineRuns md)).map jsTrimEnd)) ++ ['\n']) = false :=
    badWsNl_append_newline _ htb
  refine ⟨jsTrim (joinLines ((splitLines (collapseNewlineRuns md)).map jsTrimEnd)), rfl,
    hasTrailWs_jsTrim _, (lines_noTrailWs_iff_badWs _).mpr hob, ?_⟩
  intro hclean
  have hzb : badWsNl md = false := (lines_noTrailWs_iff_badWs md).mp hclean
  have hz1b : badWsNl (collapseNewlineRuns md) = false :=
    badWsNl_collapse md.length md (Nat.le_refl _) hzb
  have hmapid : (splitLines (collapseNewlineRuns md)).map jsTrimEnd =
      splitLines (collapseNewlineRuns md) :=
    map_jsTrimEnd_id _ ((lines_noTrailWs_iff_badWs _).mpr hz1b)
  have hyz : joinLines ((splitLines (collapseNewlineRuns md)).map jsTrimEnd) =
      collapseNewlineRuns md := by
    rw [hmapid, joinLines_splitLines]
  have h3z1 : hasThreeNl (collapseNewlineRuns md) = false :=
    hasThreeNl_collapse md.length md (Nat.le_refl _)
  have h3t : hasThreeNl (jsTrim (joinLines
      ((splitLines (collapseNewlineRuns md)).map jsTrimEnd))) = false := by
    by_contra hcon
    simp only [Bool.not_eq_false] at hcon
    have h2 := hasThreeNl_of_infix _ _ (jsTrim_infix_of_self _) hcon
    rw [hyz] at h2
    rw [h2] at h3z1
    exact Bool.noConfusion h3z1
  have hhd : ∀ c, (jsTrim (joinLines
      ((splitLines (collapseNewlineRuns md)).map jsTrimEnd))).head? = some c →
      c ≠ '\n' := by
    intro c hc he
    subst he
    exact absurd (jsTrim_head_not_space _ '\n' hc) (by decide)
  have hlst : ∀ c, (jsTrim (joinLines
      ((splitLines (collapseNewlineRuns md)).map jsTrimEnd))).getLast? = some c →
      c ≠ '\n' := by
    intro c hc he
    subst he
    exact absurd (jsTrim_getLast_not_space _ '\n' hc) (by decide)
  have hnt := no_two_empty _ h3t hhd hlst
  have hsp : splitLines (cleanMarkdown md) =
      splitLines (jsTrim (joinLines
        ((splitLines (collapseNewlineRuns md)).map jsTrimEnd))) ++ [[]] :=
    splitLines_append_newline _
  rw [hsp]
  intro hinf
  exact hnt (three_in_concat _ hinf)

/-- C9: for every converter and HTML input, empty or whitespace-only HTML
yields the empty string; otherwise the output of `htmlToMarkdown` ends in
exactly one newline (the text before it has no trailing whitespace), every
line of the output is free of trailing whitespace, and — provided the
converter's raw markdown has no line ending in whitespace — the output
never contains a run of three consecutive blank lines.  The last guarantee
genuinely needs the proviso: `cleanMarkdown` collapses newline runs before
stripping line-trailing whitespace, so whitespace-only lines in the raw
conversion can merge into three or more blank lines (see the separate
counterexample). -/
theorem c9_html_to_markdown_normalization (convert : List Char → List Char)
    (html : List Char) :
    (html = [] ∨ jsTrim html = [] → htmlToMarkdown convert html = []) ∧
    (¬(html = [] ∨ jsTrim html = []) →
      ∃ t, htmlToMarkdown convert html = t ++ ['\n'] ∧
        hasTrailWs t = false ∧
        (∀ l ∈ splitLines (htmlToMarkdown convert html), hasTrailWs l = false) ∧
        ((∀ l ∈ splitLines (convert html), hasTrailWs l = false) →
          ¬ (([[], [], []] : List (List Char)) <:+:
            splitLines (htmlToMarkdown convert html)))) := by
  constructor
  · intro hg
    unfold htmlToMarkdown
    rw [if_pos hg]
  · intro hg
    have hout : htmlToMarkdown convert html = cleanMarkdown (convert html) := by
      unfold htmlToMarkdown
      rw [if_neg hg]
    rw [hout]
    exact cleanMarkdown_props (convert html)

set_option maxHeartbeats 2000000 in
/-- Witness for C9: on the concrete input `<p>x</p>` with a converter
producing `# Hi\n\nText`, the guard hypotheses hold, the output is
`# Hi\n\nText\n`, and it has no run of three blank lines. -/
theorem c9_html_to_markdown_normalization_witness :
    ¬(("<p>x</p>".toList : List Char) = [] ∨ jsTrim "<p>x</p>".toList = []) ∧
    htmlToMarkdown (fun _ => "# Hi\n\nText".toList) "<p>x</p>".toList =
      "# Hi\n\nText\n".toList ∧
    ¬ (([[], [], []] : List (List Char)) <:+:
        splitLines (htmlToMarkdown (fun _ => "# Hi\n\nText".toList) "<p>x</p>".toList)) := by
  refine ⟨by decide, by decide, ?_⟩
  have h := (c9_html_to_markdown_normalization (fun _ => "# Hi\n\nText".toList)
    "<p>x</p>".toList).2 (by decide)
  obtain ⟨t, hout, hws, hlines, hcond⟩ := h
  exact hcond (by decide)
